import Mathlib

/-!
Shallow embedding of the ijai vacuum-map raster decoder:
`parsing_buffer.py` (class `ParsingBuffer`), `image_parser.py`
(class `IjaiImageParser`) and the coordinate transforms of
`map_data_parser.py` (`_map_to_image` / `_image_to_map`).

Machine integers are modelled as `Nat`/`Int`, Python floats by exact
rationals, Python exceptions by an explicit error type.  Methods that
mutate the buffer object are modelled as functions returning the error
or result together with the post-call buffer state, so that statements
about the state left behind by a failing call can be expressed.
-/

namespace VacuumIjai

/-- Python exceptions raised by the modelled code.
`underrun name field offs` stands for the
`ValueError` with message
"error parsing name.field at offset offs: buffer underrun";
`indexError` for `IndexError` from a sequence subscript (it carries no
location information); `attributeError` for `AttributeError` (a missing
attribute was referenced); `structError` for `struct.error` raised by
`unpack_from`; `valueError` for the `ValueError` raised by PIL
`Image.new` on a negative size. -/
inductive PyErr where
  | underrun (name field : String) (offs : Int)
  | indexError
  | attributeError
  | structError
  | valueError
  deriving DecidableEq

/-- Decidable equality of `Except` values, so that concrete runs of the
modelled code can be checked by `decide`. -/
instance {ε α : Type} [DecidableEq ε] [DecidableEq α] : DecidableEq (Except ε α) :=
  fun x y =>
    match x, y with
    | .ok a, .ok b => if h : a = b then .isTrue (by rw [h]) else .isFalse (by simp [h])
    | .error a, .error b => if h : a = b then .isTrue (by rw [h]) else .isFalse (by simp [h])
    | .ok _, .error _ => .isFalse (by simp)
    | .error _, .ok _ => .isFalse (by simp)

/-- Python `data[i]` on a byte sequence: nonnegative indices count from
the front, negative indices wrap once from the back, anything else raises
`IndexError` (modelled as `none`). -/
def pyGet (data : List Nat) (i : Int) : Option Nat :=
  if 0 ≤ i then data.get? i.toNat
  else if 0 ≤ i + data.length then data.get? (i + data.length).toNat
  else none

/-- Python `data[a:b]` slicing with the usual clamping rules. -/
def pySlice (data : List Nat) (a b : Int) : List Nat :=
  let n : Int := data.length
  let lo : Int := if a < 0 then max 0 (a + n) else min a n
  let hi : Int := if b < 0 then max 0 (b + n) else min b n
  (data.take hi.toNat).drop lo.toNat

/-- Python `int(q)` applied to a (rational-valued) number: truncation
toward zero. -/
def pyInt (q : ℚ) : Int := q.num.tdiv q.den

/-- Little-endian word assembled from `k` bytes of `data` starting at
offset `o` (the value `struct.unpack_from` decodes for the integer
formats). -/
def leWord (data : List Nat) : Nat → Nat → Nat
  | _, 0 => 0
  | o, k + 1 => data.getD o 0 + 256 * leWord data (o + 1) k

/-- Model of `struct.unpack_from` for a `k`-byte format at offset `offs`: it
raises `struct.error` when fewer than `k` bytes are available at the
offset.  Every call site in this code base passes a nonnegative offset,
so nonnegative offsets are the only ones modelled as succeeding. -/
def unpackLE (data : List Nat) (offs : Int) (k : Nat) : Except PyErr Nat :=
  if 0 ≤ offs ∧ offs.toNat + k ≤ data.length then .ok (leWord data offs.toNat k)
  else .error .structError

/-- State of a `ParsingBuffer` object: the `_name`, `data`, `offs`,
`length` and `_image_beginning` attributes.  `__init__` sets
`_image_beginning` to 0. -/
structure Buf where
  name : String
  data : List Nat
  offs : Int
  len : Int
  imageBeginning : Int
  deriving DecidableEq

/-- Model of `ParsingBuffer(name, data, start_offs, length)`. -/
def mkBuf (name : String) (data : List Nat) (start_offs : Int) (length : Int) : Buf :=
  ⟨name, data, start_offs, length, 0⟩

/-- Model of `ParsingBuffer.get_at_image(offset)`:
`return self.data[self._image_beginning + offset - 1]`. -/
def Buf.get_at_image (b : Buf) (offset : Int) : Except PyErr Nat :=
  match pyGet b.data (b.imageBeginning + offset - 1) with
  | some v => .ok v
  | none => .error .indexError

/-- Model of `ParsingBuffer.skip(field, n)`. -/
def Buf.skip (b : Buf) (field : String) (n : Int) : Except PyErr Unit × Buf :=
  if b.len < n then (.error (.underrun b.name field b.offs), b)
  else (.ok (), { b with offs := b.offs + n, len := b.len - n })

/-- Model of `ParsingBuffer.get_uint8(field)`: the offset and length are updated
before `self.data[self.offs - 1]` is read, so an out-of-range subscript
raises `IndexError` with the state already advanced. -/
def Buf.get_uint8 (b : Buf) (field : String) : Except PyErr Nat × Buf :=
  if b.len < 1 then (.error (.underrun b.name field b.offs), b)
  else
    let b' : Buf := { b with offs := b.offs + 1, len := b.len - 1 }
    match pyGet b'.data (b'.offs - 1) with
    | some v => (.ok v, b')
    | none => (.error .indexError, b')

/-- Model of `ParsingBuffer.get_uint16(field)`: the value is unpacked before the
offset advances, so a `struct.error` leaves the state unchanged. -/
def Buf.get_uint16 (b : Buf) (field : String) : Except PyErr Nat × Buf :=
  if b.len < 2 then (.error (.underrun b.name field b.offs), b)
  else
    match unpackLE b.data b.offs 2 with
    | .error e => (.error e, b)
    | .ok v => (.ok v, { b with offs := b.offs + 2, len := b.len - 2 })

/-- Model of `ParsingBuffer.get_uint16_remove_parity(field)`: the underrun branch
interpolates `self._offs`, an attribute that does not exist (the
attribute is named `offs`), so evaluating the error message raises
`AttributeError` instead of the intended `ValueError`.  On the success
path the two bytes are read before the state advances, and the value is
`((hi ^ 1) << 7) ^ lo`. -/
def Buf.get_uint16_remove_parity (b : Buf) (field : String) : Except PyErr Nat × Buf :=
  if b.len < 2 then (.error .attributeError, b)
  else
    match pyGet b.data b.offs, pyGet b.data (b.offs + 1) with
    | some lo, some hi =>
        (.ok (Nat.xor (Nat.shiftLeft (Nat.xor hi 1) 7) lo),
         { b with offs := b.offs + 2, len := b.len - 2 })
    | _, _ => (.error .indexError, b)

/-- Model of `ParsingBuffer.peek_uint32(field)`: checks the remaining length and
unpacks without advancing. -/
def Buf.peek_uint32 (b : Buf) (field : String) : Except PyErr Nat × Buf :=
  if b.len < 4 then (.error (.underrun b.name field b.offs), b)
  else
    match unpackLE b.data b.offs 4 with
    | .error e => (.error e, b)
    | .ok v => (.ok v, b)

/-- Model of `ParsingBuffer.get_uint32(field)`: `peek_uint32` followed by the
four-byte advance. -/
def Buf.get_uint32 (b : Buf) (field : String) : Except PyErr Nat × Buf :=
  match b.peek_uint32 field with
  | (.error e, b') => (.error e, b')
  | (.ok v, b') => (.ok v, { b' with offs := b'.offs + 4, len := b'.len - 4 })

/-- Model of `ParsingBuffer.get_float32(field)`: the state advances first and the
word is unpacked from `self.offs - 4`.  The IEEE-754 float denoted by the
unpacked little-endian word is represented by the word itself; no claim
depends on the decoded numeric value. -/
def Buf.get_float32 (b : Buf) (field : String) : Except PyErr Nat × Buf :=
  if b.len < 4 then (.error (.underrun b.name field b.offs), b)
  else
    let b' : Buf := { b with offs := b.offs + 4, len := b.len - 4 }
    match unpackLE b'.data (b'.offs - 4) 4 with
    | .error e => (.error e, b')
    | .ok v => (.ok v, b')

/-- Model of `ParsingBuffer.get_string_len8(field)`: reads the one-byte length
prefix via `get_uint8` (which advances the state), then checks the
remaining length against the prefix, then advances past the payload.
The returned string is represented by its raw byte slice
`self.data[self.offs - n : self.offs]`; the UTF-8 decode of that slice is
not modelled (no claim depends on it). -/
def Buf.get_string_len8 (b : Buf) (field : String) : Except PyErr (List Nat) × Buf :=
  match b.get_uint8 (field ++ ".len") with
  | (.error e, b₁) => (.error e, b₁)
  | (.ok n, b₁) =>
    if b₁.len < (n : Int) then (.error (.underrun b₁.name field b₁.offs), b₁)
    else
      let b₂ : Buf := { b₁ with offs := b₁.offs + n, len := b₁.len - n }
      (.ok (pySlice b₂.data (b₂.offs - n) b₂.offs), b₂)

/-! Classification constants of `IjaiImageParser`. -/

def MAP_OUTSIDE : Nat := 0x00
def MAP_WALL : Nat := 0xFF
def MAP_SCAN : Nat := 0x01
def MAP_NEW_DISCOVERED_AREA : Nat := 0x02
def MAP_ROOM_MIN : Nat := 10
def MAP_ROOM_MAX : Nat := 59
def MAP_SELECTED_ROOM_MIN : Nat := 60
def MAP_SELECTED_ROOM_MAX : Nat := 109

/-- Model of `IjaiImageParser.get_current_vacuum_room(map_data, vacuum_position_on_image)`:
builds a buffer named "MapImage" with length 800*800 and classifies the
byte returned by `get_at_image(int(y) * 800 + int(x))`. -/
def get_current_vacuum_room (map_data : List Nat) (pos_x pos_y : ℚ) :
    Except PyErr (Option Nat) :=
  let buf : Buf := mkBuf "MapImage" map_data 0 (800 * 800)
  match buf.get_at_image (pyInt pos_y * 800 + pyInt pos_x) with
  | .error e => .error e
  | .ok pixel_type =>
    if MAP_ROOM_MIN ≤ pixel_type ∧ pixel_type ≤ MAP_ROOM_MAX then
      .ok (some pixel_type)
    else if MAP_SELECTED_ROOM_MIN ≤ pixel_type ∧ pixel_type ≤ MAP_SELECTED_ROOM_MAX then
      .ok (some (pixel_type - MAP_SELECTED_ROOM_MIN + MAP_ROOM_MIN))
    else
      .ok none

/-! The raster map decoder `IjaiImageParser.parse`. -/

/-- The inputs `IjaiImageParser.parse` reads from its object: the scale
and the four trim percentages of `_image_config`, the four fixed colors
the constructor puts into `color_map`, the room color function of the
palette, and whether `Drawable.CLEANED_AREA` is in `_drawables`. -/
structure ParserCtx where
  scale : ℚ
  trimLeft : ℚ
  trimRight : ℚ
  trimTop : ℚ
  trimBottom : ℚ
  colorOutside : Nat
  colorWall : Nat
  colorScan : Nat
  colorNewDiscovered : Nat
  roomColor : Nat → Nat
  drawCleanedArea : Bool

/-- The `color_map` dict built in the constructor, keyed by the four
fixed classification bytes. -/
def colorMap (P : ParserCtx) (v : Nat) : Option Nat :=
  if v = MAP_OUTSIDE then some P.colorOutside
  else if v = MAP_WALL then some P.colorWall
  else if v = MAP_SCAN then some P.colorScan
  else if v = MAP_NEW_DISCOVERED_AREA then some P.colorNewDiscovered
  else none

/-- One `rooms[room_number]` bounding-box tuple
`(min_x, min_y, max_x, max_y)`. -/
structure RoomBox where
  x0 : Int
  y0 : Int
  x1 : Int
  y1 : Int
  deriving DecidableEq

/-- Python dict lookup on the insertion-ordered `rooms` dict. -/
def dictGet : List (Nat × RoomBox) → Nat → Option RoomBox
  | [], _ => none
  | (k', v') :: rest, k => if k' = k then some v' else dictGet rest k

/-- Python dict assignment `rooms[k] = v`: replaces in place, appends
when the key is new. -/
def dictSet : List (Nat × RoomBox) → Nat → RoomBox → List (Nat × RoomBox)
  | [], k, v => [(k, v)]
  | (k', v') :: rest, k, v =>
    if k' = k then (k, v) :: rest else (k', v') :: dictSet rest k v

/-- A PIL image: its size and the log of `pixels[x, y] = color` writes
performed on it (created blank). -/
structure PImage where
  w : Int
  h : Int
  px : List ((Nat × Nat) × Nat)
  deriving DecidableEq

/-- Model of `Image.new("RGBA", (w, h))`: PIL raises `ValueError` on a negative
size. -/
def imageNew (w h : Int) : Except PyErr PImage :=
  if w < 0 ∨ h < 0 then .error .valueError else .ok ⟨w, h, []⟩

/-- Model of `image.resize((w, h), resample=NEAREST)`: PIL raises `ValueError` on
a negative size.  The nearest-neighbor resampling of the pixel log is
not modelled; no claim depends on resampled pixel content. -/
def imageResize (img : PImage) (w h : Int) : Except PyErr PImage :=
  if w < 0 ∨ h < 0 then .error .valueError else .ok ⟨w, h, img.px⟩

/-- The mutable state of one `parse` call: the buffer and the
accumulators `pixels`, `rooms`, `cleaned_areas`, `cleaned_areas_pixels`,
`unknown_pixels`. -/
structure ParseSt where
  buf : Buf
  pixels : List ((Nat × Nat) × Nat)
  rooms : List (Nat × RoomBox)
  cleaned : Finset Nat
  cleanedPixels : List ((Nat × Nat) × Nat)
  unknown : Finset Nat
  deriving DecidableEq

/-- Lines 86-93 of `image_parser.py`: create or widen the bounding box of
`room_number` at pre-flip coordinates `(rx, ry)`, then paint the output
pixel `(x, y)` with the palette room color. -/
def addRoom (P : ParserCtx) (st : ParseSt) (n : Nat) (rx ry : Int) (x y : Nat) : ParseSt :=
  let box : RoomBox :=
    match dictGet st.rooms n with
    | none => ⟨rx, ry, rx, ry⟩
    | some b => ⟨min b.x0 rx, min b.y0 ry, max b.x1 rx, max b.y1 ry⟩
  { st with rooms := dictSet st.rooms n box,
            pixels := st.pixels ++ [((x, y), P.roomColor n)] }

/-- The body of the inner pixel loop: read one classification byte and
dispatch on it.  In the two branches that call
`IjaiImageParser.get_color(...)` (cleaned-area overlay paint and unknown
byte paint), the class `IjaiImageParser` has no attribute `get_color`,
so evaluating that call raises `AttributeError`. -/
def cellStep (P : ParserCtx) (tl tb : Int) (th iy ix : Nat) (st : ParseSt) :
    Except PyErr ParseSt :=
  match st.buf.get_uint8 "pixel" with
  | (.error e, _) => .error e
  | (.ok pixel_type, buf') =>
    let st1 : ParseSt := { st with buf := buf' }
    let x := ix
    let y := th - 1 - iy
    match colorMap P pixel_type with
    | some c => .ok { st1 with pixels := st1.pixels ++ [((x, y), c)] }
    | none =>
      if MAP_ROOM_MIN ≤ pixel_type ∧ pixel_type ≤ MAP_SELECTED_ROOM_MAX then
        let room_x : Int := (ix : Int) + tl
        let room_y : Int := (iy : Int) + tb
        if pixel_type < MAP_SELECTED_ROOM_MIN then
          .ok (addRoom P st1 pixel_type room_x room_y x y)
        else
          let rn := pixel_type - MAP_SELECTED_ROOM_MIN + MAP_ROOM_MIN
          let st2 : ParseSt := { st1 with cleaned := insert rn st1.cleaned }
          if P.drawCleanedArea then .error .attributeError
          else .ok (addRoom P st2 rn room_x room_y x y)
      else
        .error .attributeError

/-- The inner `for img_x in range(trimmed_width)` loop, from column `ix`
with `n` columns left. -/
def colsLoop (P : ParserCtx) (tl tb : Int) (th iy : Nat) :
    Nat → Nat → ParseSt → Except PyErr ParseSt
  | _, 0, st => .ok st
  | ix, n + 1, st =>
    match cellStep P tl tb th iy ix st with
    | .error e => .error e
    | .ok st' => colsLoop P tl tb th iy (ix + 1) n st'

/-- One iteration of the outer row loop: skip `trim_left`, decode the
row, skip `trim_right`. -/
def rowStep (P : ParserCtx) (tl tr tb : Int) (tw th iy : Nat) (st : ParseSt) :
    Except PyErr ParseSt :=
  match st.buf.skip "trim_left" tl with
  | (.error e, _) => .error e
  | (.ok _, b₁) =>
    match colsLoop P tl tb th iy 0 tw { st with buf := b₁ } with
    | .error e => .error e
    | .ok st₂ =>
      match st₂.buf.skip "trim_right" tr with
      | (.error e, _) => .error e
      | (.ok _, b₃) => .ok { st₂ with buf := b₃ }

/-- The outer `for img_y in range(trimmed_height)` loop, from row `iy`
with `m` rows left. -/
def rowsLoop (P : ParserCtx) (tl tr tb : Int) (tw th : Nat) :
    Nat → Nat → ParseSt → Except PyErr ParseSt
  | _, 0, st => .ok st
  | iy, m + 1, st =>
    match rowStep P tl tr tb tw th iy st with
    | .error e => .error e
    | .ok st' => rowsLoop P tl tr tb tw th (iy + 1) m st'

/-- The 4-tuple `parse` returns: image, rooms, cleaned_areas,
cleaned_areas_layer. -/
structure ParseResult where
  image : Option PImage
  rooms : List (Nat × RoomBox)
  cleaned : Finset Nat
  layer : Option PImage
  deriving DecidableEq

/-- Model of `trim_left = int(self._image_config.trim.left * width / 100)`. -/
def trimL (P : ParserCtx) (w : Nat) : Int := pyInt (P.trimLeft * w / 100)

/-- Model of `trim_right = int(self._image_config.trim.right * width / 100)`. -/
def trimR (P : ParserCtx) (w : Nat) : Int := pyInt (P.trimRight * w / 100)

/-- Model of `trim_top = int(self._image_config.trim.top * height / 100)`. -/
def trimT (P : ParserCtx) (h : Nat) : Int := pyInt (P.trimTop * h / 100)

/-- Model of `trim_bottom = int(self._image_config.trim.bottom * height / 100)`. -/
def trimB (P : ParserCtx) (h : Nat) : Int := pyInt (P.trimBottom * h / 100)

/-- The buffer phase of one `parse` call: the buffer is created with
length `width * height` (not with the true length of `map_data`), the
bottom-trim rows are skipped, the row loop runs, and the top-trim rows
are skipped; the accumulated state is returned. -/
def parseLoop (P : ParserCtx) (map_data : List Nat) (width height : Nat)
    (trim_left trim_right trim_top trim_bottom : Int) (tw th : Nat) :
    Except PyErr ParseSt :=
  match (mkBuf "MapImage" map_data 0 ((width : Int) * height)).skip "trim_bottom"
      (trim_bottom * width) with
  | (.error e, _) => .error e
  | (.ok _, b₁) =>
    match rowsLoop P trim_left trim_right trim_bottom tw th 0 th ⟨b₁, [], [], ∅, [], ∅⟩ with
    | .error e => .error e
    | .ok st₂ =>
      match st₂.buf.skip "trim_top" (trim_top * width) with
      | (.error e, _) => .error e
      | (.ok _, _b₃) => .ok st₂

/-- The scale step of `parse` and the assembly of the returned 4-tuple
from the final loop state: when `scale != 1` both bitmaps are resized to
`(int(trimmed_width * scale), int(trimmed_height * scale))`. -/
def assembleResult (P : ParserCtx) (trimmed_width trimmed_height : Int)
    (layer₀ : Option PImage) (st₂ : ParseSt) : Except PyErr ParseResult :=
  if P.scale ≠ 1 ∧ trimmed_width ≠ 0 ∧ trimmed_height ≠ 0 then
    match imageResize ⟨trimmed_width, trimmed_height, st₂.pixels⟩
        (pyInt (trimmed_width * P.scale)) (pyInt (trimmed_height * P.scale)) with
    | .error e => .error e
    | .ok image₂ =>
      if P.drawCleanedArea then
        match layer₀.map (fun l => { l with px := st₂.cleanedPixels }) with
        | none => .error .attributeError
        | some l =>
          match imageResize l (pyInt (trimmed_width * P.scale))
              (pyInt (trimmed_height * P.scale)) with
          | .error e => .error e
          | .ok l₂ => .ok ⟨some image₂, st₂.rooms, st₂.cleaned, some l₂⟩
      else .ok ⟨some image₂, st₂.rooms, st₂.cleaned,
        layer₀.map (fun l => { l with px := st₂.cleanedPixels })⟩
  else
    .ok ⟨some ⟨trimmed_width, trimmed_height, st₂.pixels⟩, st₂.rooms, st₂.cleaned,
      layer₀.map (fun l => { l with px := st₂.cleanedPixels })⟩

/-- The body of `IjaiImageParser.parse(map_data, width, height)` once
the four trim amounts have been computed.  When either trimmed dimension
is exactly zero the empty sentinel `(None, {}, set(), None)` is returned
before anything is read. -/
def parseWithTrims (P : ParserCtx) (map_data : List Nat) (width height : Nat)
    (trim_left trim_right trim_top trim_bottom : Int) :
    Except PyErr ParseResult :=
  if (width : Int) - trim_left - trim_right = 0 ∨
      (height : Int) - trim_top - trim_bottom = 0 then
    .ok ⟨none, [], ∅, none⟩
  else
    match imageNew ((width : Int) - trim_left - trim_right)
        ((height : Int) - trim_top - trim_bottom) with
    | .error e => .error e
    | .ok _image₀ =>
      match (if P.drawCleanedArea then
              (imageNew ((width : Int) - trim_left - trim_right)
                ((height : Int) - trim_top - trim_bottom)).map some
             else .ok none : Except PyErr (Option PImage)) with
      | .error e => .error e
      | .ok layer₀ =>
        match parseLoop P map_data width height trim_left trim_right trim_top trim_bottom
            ((width : Int) - trim_left - trim_right).toNat
            ((height : Int) - trim_top - trim_bottom).toNat with
        | .error e => .error e
        | .ok st₂ =>
          assembleResult P ((width : Int) - trim_left - trim_right)
            ((height : Int) - trim_top - trim_bottom) layer₀ st₂

/-- Model of `IjaiImageParser.parse(map_data, width, height)`: computes the four
trim amounts `int(trim * dim / 100)` and runs the decode body. -/
def parse (P : ParserCtx) (map_data : List Nat) (width height : Nat) :
    Except PyErr ParseResult :=
  parseWithTrims P map_data width height
    (trimL P width) (trimR P width) (trimT P height) (trimB P height)

/-- Model of `IjaiMapDataParser._map_to_image(p)` applied to one coordinate:
`real_world * 20 + 400`. -/
def map_to_image (v : ℚ) : ℚ := v * 20 + 400

/-- Model of `IjaiMapDataParser._image_to_map(x)`: `(x - 400) / 20`. -/
def image_to_map (x : ℚ) : ℚ := (x - 400) / 20

/-!
Specification-side helpers used to state and prove properties of the
decoder loop: the classification of one byte, the pure accumulator
update it induces on `(rooms, cleaned_areas)`, and the enumeration of
the cells a successful decode reads.
-/

/-- The room id a classification byte denotes: `v` itself on the plain
room range, `v - 60 + 10` on the selected range, nothing otherwise. -/
def roomNumberOf (v : Nat) : Option Nat :=
  if 10 ≤ v ∧ v ≤ 59 then some v
  else if 60 ≤ v ∧ v ≤ 109 then some (v - 60 + 10)
  else none

/-- Create-or-widen of a bounding box by the cell `(rx, ry)`. -/
def mergeBox : Option RoomBox → Int → Int → RoomBox
  | none, rx, ry => ⟨rx, ry, rx, ry⟩
  | some b, rx, ry => ⟨min b.x0 rx, min b.y0 ry, max b.x1 rx, max b.y1 ry⟩

/-- Effect of one decoded cell with byte `v` at pre-flip coordinates
`(rx, ry)` on the pair `(rooms, cleaned_areas)`. -/
def accUpd (a : List (Nat × RoomBox) × Finset Nat) (v : Nat) (rx ry : Int) :
    List (Nat × RoomBox) × Finset Nat :=
  match roomNumberOf v with
  | none => a
  | some rn =>
      (dictSet a.1 rn (mergeBox (dictGet a.1 rn) rx ry),
       if 60 ≤ v then insert rn a.2 else a.2)

/-- Fold of `accUpd` over a list of cells `(byte, rx, ry)`. -/
def accFold (a : List (Nat × RoomBox) × Finset Nat) :
    List (Nat × Int × Int) → List (Nat × RoomBox) × Finset Nat
  | [] => a
  | (v, rx, ry) :: rest => accFold (accUpd a v rx ry) rest

/-- The `n` cells of one row: bytes at consecutive data offsets starting
at `o`, with pre-flip coordinates starting at `(rx, ry)`. -/
def rowCells (data : List Nat) : Nat → Int → Int → Nat → List (Nat × Int × Int)
  | _, _, _, 0 => []
  | o, rx, ry, n + 1 => (data.getD o 0, rx, ry) :: rowCells data (o + 1) (rx + 1) ry n

/-- The cells of `m` consecutive rows; each row starts `tlN` bytes after
the row base `o` and a full row occupies `tlN + tw + trN` bytes. -/
def gridCells (data : List Nat) (tlN trN tw : Nat) (tl tb : Int) :
    Nat → Nat → Nat → List (Nat × Int × Int)
  | _, _, 0 => []
  | o, iy, m + 1 =>
      rowCells data (o + tlN) tl ((iy : Int) + tb) tw ++
        gridCells data tlN trN tw tl tb (o + tlN + tw + trN) (iy + 1) m

/-- The classification byte of the cell at output column `ix` and
output row `iy` (counted before the vertical flip): the raster is
row-major, `tbN` bottom rows are skipped, and each visible row starts
`tlN` bytes in. -/
def cellByte (data : List Nat) (w tbN tlN ix iy : Nat) : Nat :=
  data.getD ((tbN + iy) * w + tlN + ix) 0

/-- The pre-flip coordinates of the cells of `l` classified to room
`r`. -/
def cellsOf (r : Nat) (l : List (Nat × Int × Int)) : List (Int × Int) :=
  l.filterMap fun c =>
    if roomNumberOf c.1 = some r then some (c.2.1, c.2.2) else none

/-- A byte the decoder survives: either one of the four fixed codes, or
a room byte that does not route through the broken
`IjaiImageParser.get_color` call (a selected-room byte only when no
cleaned-area overlay was requested). -/
def safeByte (P : ParserCtx) (v : Nat) : Prop :=
  (colorMap P v).isSome = true ∨
    (10 ≤ v ∧ v ≤ 109 ∧ (v < 60 ∨ P.drawCleanedArea = false))

/-- The rooms dict `d` is exactly the min/max bounding-box summary of
the cells listed in `seen`: a key is present iff the room has a cell,
and its box bounds are attained bounds of the room cell coordinates. -/
def RoomsSpec (d : List (Nat × RoomBox)) (seen : List (Nat × Int × Int)) : Prop :=
  ∀ r : Nat,
    (dictGet d r = none ↔ cellsOf r seen = []) ∧
    ∀ box, dictGet d r = some box →
      (∀ p ∈ cellsOf r seen,
        box.x0 ≤ p.1 ∧ p.1 ≤ box.x1 ∧ box.y0 ≤ p.2 ∧ p.2 ≤ box.y1) ∧
      (∃ p ∈ cellsOf r seen, p.1 = box.x0) ∧
      (∃ p ∈ cellsOf r seen, p.2 = box.y0) ∧
      (∃ p ∈ cellsOf r seen, p.1 = box.x1) ∧
      (∃ p ∈ cellsOf r seen, p.2 = box.y1)

/-- The invariant behind claim C9: cleaned-area ids are room-dict keys
and ids on both sides lie in the plain room range. -/
def IdsInv (a : List (Nat × RoomBox) × Finset Nat) : Prop :=
  (∀ r ∈ a.2, (dictGet a.1 r).isSome = true) ∧
    (∀ r ∈ a.2, 10 ≤ r ∧ r ≤ 59) ∧
    ∀ p ∈ a.1, 10 ≤ p.1 ∧ p.1 ≤ 59

/-- The `trimmed_width` that `parse` computes. -/
def trimmedW (P : ParserCtx) (w : Nat) : Int := (w : Int) - trimL P w - trimR P w

/-- The `trimmed_height` that `parse` computes. -/
def trimmedH (P : ParserCtx) (h : Nat) : Int := (h : Int) - trimT P h - trimB P h

/-- A concrete parser context: scale 1, no trimming, cleaned-area
overlay not requested, distinguishable colors. -/
def ctxPlain : ParserCtx :=
  ⟨1, 0, 0, 0, 0, 1000, 1001, 1002, 1003, fun n => 2000 + n, false⟩

/-- Model of `ctxPlain` with the cleaned-area overlay requested. -/
def ctxOverlay : ParserCtx := { ctxPlain with drawCleanedArea := true }

/-- Model of `ctxPlain` with 60 percent trimmed from both the left and the right
edge. -/
def ctxTrim60 : ParserCtx := { ctxPlain with trimLeft := 60, trimRight := 60 }

/-- Model of `ctxPlain` with 50 percent trimmed from both the left and the right
edge. -/
def ctxTrim50 : ParserCtx := { ctxPlain with trimLeft := 50, trimRight := 50 }

/-- A raw 800x800 raster that is all zero except for byte value 12 at
linear index 12 (used against the vacuum-room locator). -/
def locatorRaster : List Nat := List.replicate 12 0 ++ 12 :: List.replicate 639987 0

/-! Helper lemmas. -/

theorem pyInt_nonneg {q : ℚ} (h : 0 ≤ q) : 0 ≤ pyInt q :=
  Int.tdiv_nonneg (Rat.num_nonneg.2 h) (Int.natCast_nonneg _)

theorem pyInt_eq_floor {q : ℚ} (h : 0 ≤ q) : pyInt q = ⌊q⌋ := by
  rw [Rat.floor_def]
  exact Int.tdiv_eq_ediv (Rat.num_nonneg.2 h) (Int.natCast_nonneg _)

theorem skip_ok {b : Buf} {f : String} {n : Int} {u : Unit} {b' : Buf}
    (hsk : b.skip f n = (.ok u, b')) :
    ¬b.len < n ∧ b' = { b with offs := b.offs + n, len := b.len - n } := by
  unfold Buf.skip at hsk
  split at hsk
  · simp at hsk
  · simp only [Prod.mk.injEq] at hsk
    exact ⟨by assumption, hsk.2.symm⟩

theorem pyInt_zero : pyInt 0 = 0 := by
  simp [pyInt]

theorem pyInt_trim_zero {pct : ℚ} (hp : pct = 0) (w : Nat) : pyInt (pct * w / 100) = 0 := by
  subst hp
  simp [pyInt_zero]

theorem trims_ctxPlain (w : Nat) :
    trimL ctxPlain w = 0 ∧ trimR ctxPlain w = 0 ∧
      trimT ctxPlain w = 0 ∧ trimB ctxPlain w = 0 :=
  ⟨pyInt_trim_zero rfl w, pyInt_trim_zero rfl w, pyInt_trim_zero rfl w, pyInt_trim_zero rfl w⟩

theorem trims_ctxOverlay (w : Nat) :
    trimL ctxOverlay w = 0 ∧ trimR ctxOverlay w = 0 ∧
      trimT ctxOverlay w = 0 ∧ trimB ctxOverlay w = 0 :=
  ⟨pyInt_trim_zero rfl w, pyInt_trim_zero rfl w, pyInt_trim_zero rfl w, pyInt_trim_zero rfl w⟩

/-! ### Claim C8: the two coordinate transforms are mutually inverse

Real-number arithmetic of the Python floats is modelled exactly (by
rationals). -/

/-- C8: pixel-to-map applied to map-to-pixel is the identity on
real-world coordinates, and map-to-pixel applied to pixel-to-map is the
identity on pixel coordinates. -/
theorem transforms_mutually_inverse :
    (∀ v : ℚ, image_to_map (map_to_image v) = v) ∧
    ∀ p : ℚ, map_to_image (image_to_map p) = p := by
  constructor <;> intro x <;> simp [map_to_image, image_to_map]

/-! ### Claim C2: unrecognized bytes

The unknown-byte branch calls `IjaiImageParser.get_color`, an attribute
the class does not have, so the decode crashes instead of painting the
diagnostic color and continuing. -/

/-- C2: decoding a 1x1 raster whose single byte is 3 (not a fixed code,
not a room byte) raises `AttributeError` instead of completing. -/
theorem unknown_byte_parse_crashes :
    parse ctxPlain [3] 1 1 = .error .attributeError := by
  rw [parse, (trims_ctxPlain 1).1, (trims_ctxPlain 1).2.1,
    (trims_ctxPlain 1).2.2.1, (trims_ctxPlain 1).2.2.2]
  decide

/-! ### Claim C6: selected-room bytes

Deriving `room_id = byte - 60 + 10` and adding it to the cleaned-area
set do happen, but when the cleaned-area overlay was requested the
overlay paint calls the missing `IjaiImageParser.get_color` attribute
and the decode aborts with `AttributeError`. -/

/-- C6: decoding a 1x1 raster whose single byte is 60 with the
cleaned-area overlay requested raises `AttributeError` instead of
painting the overlay pixel. -/
theorem selected_room_overlay_crashes :
    parse ctxOverlay [60] 1 1 = .error .attributeError := by
  rw [parse, (trims_ctxOverlay 1).1, (trims_ctxOverlay 1).2.1,
    (trims_ctxOverlay 1).2.2.1, (trims_ctxOverlay 1).2.2.2]
  decide

/-! ### Claim C1: the vacuum-room locator

`get_at_image(offset)` returns `data[image_beginning + offset - 1]`, so
the locator reads the byte at linear index `y*800 + x - 1`, one byte
before the one the claim names. -/

theorem pyGet_eq_getD {data : List Nat} {i : Int} (h0 : 0 ≤ i)
    (hlt : i.toNat < data.length) :
    pyGet data i = some (data.getD i.toNat 0) := by
  rw [pyGet, if_pos h0, List.getD_eq_get?, List.get?_eq_get hlt]
  rfl

/-- C1 counterexample: an 800x800 raster whose byte at linear index
`0*800 + 12` is 12 (a plain room id); the claim predicts room 12, but
the locator at point (12, 0) returns no room, because it reads the byte
at index 11 instead. -/
theorem locator_cex :
    locatorRaster.length = 800 * 800 ∧
    locatorRaster.get? (0 * 800 + 12) = some 12 ∧
    get_current_vacuum_room locatorRaster 12 0 = .ok none := by
  refine ⟨?_, by decide, by decide⟩
  rw [locatorRaster, List.length_append, List.length_cons, List.length_replicate,
    List.length_replicate]

/-- C1 amended: for every 800x800 raster and every in-range pixel point
with positive linear index, the locator reads the byte at linear index
`y*800 + x - 1` and classifies it: a byte in [10, 59] is returned as the
room id, a byte in [60, 109] is returned as byte - 60 + 10, anything
else yields no room. -/
theorem locator_reads_previous_byte (data : List Nat) (x y : ℚ)
    (hlen : data.length = 800 * 800)
    (hx0 : 0 ≤ pyInt x) (hx8 : pyInt x < 800)
    (hy0 : 0 ≤ pyInt y) (hy8 : pyInt y < 800)
    (hpos : 1 ≤ pyInt y * 800 + pyInt x) :
    get_current_vacuum_room data x y =
      .ok (roomNumberOf (data.getD (pyInt y * 800 + pyInt x - 1).toNat 0)) := by
  have hi0 : 0 ≤ pyInt y * 800 + pyInt x - 1 := by omega
  have hlt : (pyInt y * 800 + pyInt x - 1).toNat < data.length := by
    rw [hlen]; omega
  have hg : pyGet data (0 + (pyInt y * 800 + pyInt x) - 1) =
      some (data.getD (pyInt y * 800 + pyInt x - 1).toNat 0) := by
    rw [zero_add]
    exact pyGet_eq_getD hi0 hlt
  simp only [get_current_vacuum_room, Buf.get_at_image, mkBuf, hg]
  unfold roomNumberOf MAP_ROOM_MIN MAP_ROOM_MAX MAP_SELECTED_ROOM_MIN MAP_SELECTED_ROOM_MAX
  split_ifs <;> rfl

/-- C1 witness: the amended theorem applied at the counterexample
raster and point (12, 0); the byte the locator actually reads (index
11) is 0, so no room is reported. -/
theorem locator_reads_previous_byte_witness :
    get_current_vacuum_room locatorRaster 12 0 =
      .ok (roomNumberOf (locatorRaster.getD (pyInt 0 * 800 + pyInt 12 - 1).toNat 0)) ∧
    locatorRaster.getD (pyInt (0 : ℚ) * 800 + pyInt (12 : ℚ) - 1).toNat 0 = 0 := by
  constructor
  · exact locator_reads_previous_byte locatorRaster 12 0
      (by rw [locatorRaster, List.length_append, List.length_cons, List.length_replicate,
        List.length_replicate])
      (by decide) (by decide) (by decide) (by decide) (by decide)
  · decide

/-! ### Claim C3: underrun behavior of the cursor primitives

Two primitives deviate from the claim: `get_string_len8` consumes its
length byte before discovering that the string body underruns, and the
underrun branch of `get_uint16_remove_parity` raises `AttributeError`
(it interpolates the nonexistent attribute `_offs`). -/

/-- C3 counterexample: `get_string_len8` on a buffer holding the single
byte 5 (a length prefix promising five payload bytes) fails with the
underrun error but leaves the cursor advanced past the length byte
(offset 1, remaining length 0), not in its pre-call state. -/
theorem get_string_len8_not_atomic :
    Buf.get_string_len8 (mkBuf "MapImage" [5] 0 1) "f" =
      (.error (.underrun "MapImage" "f" 1), ⟨"MapImage", [5], 1, 0, 0⟩) ∧
    (⟨"MapImage", [5], 1, 0, 0⟩ : Buf) ≠ mkBuf "MapImage" [5] 0 1 := by
  refine ⟨by decide, ?_⟩
  intro hcontra
  simp [mkBuf] at hcontra

/-- C3 amended: on underrun, `skip`, `get_uint8`, `get_uint16`,
`get_uint32`, `get_float32` and `peek_uint32` fail with the underrun
error naming the buffer, the field and the current offset and leave the
cursor state unchanged; `get_uint16_remove_parity` leaves the state
unchanged but fails with `AttributeError` instead of the underrun
error; `get_string_len8` is atomic only for the length-byte underrun,
while a payload underrun leaves the cursor advanced by one byte. -/
theorem primitives_underrun_behavior :
    (∀ (b : Buf) (f : String) (n : Int), b.len < n →
      b.skip f n = (.error (.underrun b.name f b.offs), b)) ∧
    (∀ (b : Buf) (f : String), b.len < 1 →
      b.get_uint8 f = (.error (.underrun b.name f b.offs), b)) ∧
    (∀ (b : Buf) (f : String), b.len < 2 →
      b.get_uint16 f = (.error (.underrun b.name f b.offs), b)) ∧
    (∀ (b : Buf) (f : String), b.len < 4 →
      b.get_uint32 f = (.error (.underrun b.name f b.offs), b)) ∧
    (∀ (b : Buf) (f : String), b.len < 4 →
      b.get_float32 f = (.error (.underrun b.name f b.offs), b)) ∧
    (∀ (b : Buf) (f : String), b.len < 4 →
      b.peek_uint32 f = (.error (.underrun b.name f b.offs), b)) ∧
    (∀ (b : Buf) (f : String), b.len < 2 →
      b.get_uint16_remove_parity f = (.error .attributeError, b)) ∧
    (∀ (b : Buf) (f : String), b.len < 1 →
      b.get_string_len8 f = (.error (.underrun b.name (f ++ ".len") b.offs), b)) ∧
    (∀ (b : Buf) (f : String) (n₀ : Nat), pyGet b.data b.offs = some n₀ →
      1 ≤ b.len → b.len - 1 < (n₀ : Int) →
      b.get_string_len8 f = (.error (.underrun b.name f (b.offs + 1)),
        { b with offs := b.offs + 1, len := b.len - 1 })) := by
  refine ⟨?_, ?_, ?_, ?_, ?_, ?_, ?_, ?_, ?_⟩
  · intro b f n hlt
    rw [Buf.skip, if_pos hlt]
  · intro b f hlt
    rw [Buf.get_uint8, if_pos hlt]
  · intro b f hlt
    rw [Buf.get_uint16, if_pos hlt]
  · intro b f hlt
    rw [Buf.get_uint32, Buf.peek_uint32, if_pos hlt]
  · intro b f hlt
    rw [Buf.get_float32, if_pos hlt]
  · intro b f hlt
    rw [Buf.peek_uint32, if_pos hlt]
  · intro b f hlt
    rw [Buf.get_uint16_remove_parity, if_pos hlt]
  · intro b f hlt
    rw [Buf.get_string_len8, Buf.get_uint8, if_pos hlt]
  · intro b f n₀ hget hge hlt
    have h1 : ¬b.len < 1 := by omega
    rw [Buf.get_string_len8, Buf.get_uint8, if_neg h1]
    simp only [add_sub_cancel_right, hget]
    rw [if_pos hlt]

/-- C3 witness: the amended theorem applied to concrete buffers, one
instance for each primitive. -/
theorem primitives_underrun_behavior_witness :
    Buf.skip (mkBuf "B" [] 0 0) "f" 1 = (.error (.underrun "B" "f" 0), mkBuf "B" [] 0 0) ∧
    Buf.get_uint8 (mkBuf "B" [] 0 0) "f" = (.error (.underrun "B" "f" 0), mkBuf "B" [] 0 0) ∧
    Buf.get_uint16 (mkBuf "B" [] 0 0) "f" = (.error (.underrun "B" "f" 0), mkBuf "B" [] 0 0) ∧
    Buf.get_uint32 (mkBuf "B" [] 0 0) "f" = (.error (.underrun "B" "f" 0), mkBuf "B" [] 0 0) ∧
    Buf.get_float32 (mkBuf "B" [] 0 0) "f" = (.error (.underrun "B" "f" 0), mkBuf "B" [] 0 0) ∧
    Buf.peek_uint32 (mkBuf "B" [] 0 0) "f" = (.error (.underrun "B" "f" 0), mkBuf "B" [] 0 0) ∧
    Buf.get_uint16_remove_parity (mkBuf "B" [] 0 0) "f" =
      (.error .attributeError, mkBuf "B" [] 0 0) ∧
    Buf.get_string_len8 (mkBuf "B" [] 0 0) "f" =
      (.error (.underrun "B" "f.len" 0), mkBuf "B" [] 0 0) ∧
    Buf.get_string_len8 (mkBuf "B" [7] 0 1) "f" =
      (.error (.underrun "B" "f" 1), ⟨"B", [7], 1, 0, 0⟩) :=
  ⟨primitives_underrun_behavior.1 (mkBuf "B" [] 0 0) "f" 1 (by decide),
   primitives_underrun_behavior.2.1 (mkBuf "B" [] 0 0) "f" (by decide),
   primitives_underrun_behavior.2.2.1 (mkBuf "B" [] 0 0) "f" (by decide),
   primitives_underrun_behavior.2.2.2.1 (mkBuf "B" [] 0 0) "f" (by decide),
   primitives_underrun_behavior.2.2.2.2.1 (mkBuf "B" [] 0 0) "f" (by decide),
   primitives_underrun_behavior.2.2.2.2.2.1 (mkBuf "B" [] 0 0) "f" (by decide),
   primitives_underrun_behavior.2.2.2.2.2.2.1 (mkBuf "B" [] 0 0) "f" (by decide),
   primitives_underrun_behavior.2.2.2.2.2.2.2.1 (mkBuf "B" [] 0 0) "f" (by decide),
   primitives_underrun_behavior.2.2.2.2.2.2.2.2 (mkBuf "B" [7] 0 1) "f" 7 (by decide)
     (by decide) (by decide)⟩

/-! ### Claim C10: `offs + length` is preserved by successful reads -/

theorem get_uint8_ok {b : Buf} {f : String} {v : Nat} {b' : Buf}
    (hu : b.get_uint8 f = (.ok v, b')) :
    b' = { b with offs := b.offs + 1, len := b.len - 1 } ∧
      pyGet b.data b.offs = some v := by
  unfold Buf.get_uint8 at hu
  split at hu
  · simp at hu
  · simp only [] at hu
    split at hu
    · rename_i heq
      simp only [Prod.mk.injEq, Except.ok.injEq] at hu
      rw [add_sub_cancel_right] at heq
      exact ⟨hu.2.symm, hu.1 ▸ heq⟩
    · simp at hu

/-- C10: every successful sequential primitive increases `offs` by
exactly as much as it decreases `length`, so `offs + length` is
invariant across `skip`, `get_uint8`, `get_uint16`,
`get_uint16_remove_parity`, `get_uint32`, `get_float32` and
`get_string_len8`. -/
theorem sequential_reads_preserve_span :
    (∀ (b : Buf) (f : String) (n : Int) (u : Unit) (b' : Buf),
      b.skip f n = (.ok u, b') → b'.offs + b'.len = b.offs + b.len) ∧
    (∀ (b : Buf) (f : String) (v : Nat) (b' : Buf),
      b.get_uint8 f = (.ok v, b') → b'.offs + b'.len = b.offs + b.len) ∧
    (∀ (b : Buf) (f : String) (v : Nat) (b' : Buf),
      b.get_uint16 f = (.ok v, b') → b'.offs + b'.len = b.offs + b.len) ∧
    (∀ (b : Buf) (f : String) (v : Nat) (b' : Buf),
      b.get_uint16_remove_parity f = (.ok v, b') → b'.offs + b'.len = b.offs + b.len) ∧
    (∀ (b : Buf) (f : String) (v : Nat) (b' : Buf),
      b.get_uint32 f = (.ok v, b') → b'.offs + b'.len = b.offs + b.len) ∧
    (∀ (b : Buf) (f : String) (v : Nat) (b' : Buf),
      b.get_float32 f = (.ok v, b') → b'.offs + b'.len = b.offs + b.len) ∧
    (∀ (b : Buf) (f : String) (s : List Nat) (b' : Buf),
      b.get_string_len8 f = (.ok s, b') → b'.offs + b'.len = b.offs + b.len) := by
  refine ⟨?_, ?_, ?_, ?_, ?_, ?_, ?_⟩
  · intro b f n u b' hp
    obtain ⟨-, rfl⟩ := skip_ok hp
    ring
  · intro b f v b' hp
    obtain ⟨rfl, -⟩ := get_uint8_ok hp
    ring
  · intro b f v b' hp
    unfold Buf.get_uint16 at hp
    split at hp
    · simp at hp
    · split at hp
      · simp at hp
      · simp only [Prod.mk.injEq] at hp
        rw [← hp.2]
        ring
  · intro b f v b' hp
    unfold Buf.get_uint16_remove_parity at hp
    split at hp
    · simp at hp
    · split at hp
      · simp only [Prod.mk.injEq] at hp
        rw [← hp.2]
        ring
      · simp at hp
  · intro b f v b' hp
    unfold Buf.get_uint32 at hp
    split at hp
    · simp at hp
    · rename_i w bmid heq
      obtain rfl : bmid = b := by
        unfold Buf.peek_uint32 at heq
        split at heq
        · simp at heq
        · split at heq
          · simp at heq
          · simp only [Prod.mk.injEq] at heq
            exact heq.2.symm
      simp only [Prod.mk.injEq] at hp
      rw [← hp.2]
      ring
  · intro b f v b' hp
    unfold Buf.get_float32 at hp
    split at hp
    · simp at hp
    · simp only [] at hp
      split at hp
      · simp at hp
      · simp only [Prod.mk.injEq] at hp
        rw [← hp.2]
        ring
  · intro b f s b' hp
    unfold Buf.get_string_len8 at hp
    split at hp
    · simp at hp
    · rename_i n b₁ heq
      obtain ⟨rfl, -⟩ := get_uint8_ok heq
      split at hp
      · simp at hp
      · simp only [Prod.mk.injEq] at hp
        rw [← hp.2]
        ring

/-- C10 witness: the span-preservation theorem applied to concrete
successful calls of each primitive. -/
theorem sequential_reads_preserve_span_witness :
    (3 : Int) + 5 = 0 + 8 ∧ (1 : Int) + 7 = 0 + 8 ∧ (2 : Int) + 6 = 0 + 8 ∧
      (4 : Int) + 4 = 0 + 8 ∧ (3 : Int) + 1 = 0 + 4 :=
  ⟨sequential_reads_preserve_span.1 (mkBuf "B" [1, 2, 3, 4, 5, 6, 7, 8] 0 8) "f" 3 ()
      ⟨"B", [1, 2, 3, 4, 5, 6, 7, 8], 3, 5, 0⟩ (by decide),
   sequential_reads_preserve_span.2.1 (mkBuf "B" [1, 2, 3, 4, 5, 6, 7, 8] 0 8) "f" 1
      ⟨"B", [1, 2, 3, 4, 5, 6, 7, 8], 1, 7, 0⟩ (by decide),
   sequential_reads_preserve_span.2.2.2.1 (mkBuf "B" [1, 2, 3, 4, 5, 6, 7, 8] 0 8) "f" 385
      ⟨"B", [1, 2, 3, 4, 5, 6, 7, 8], 2, 6, 0⟩ (by decide),
   sequential_reads_preserve_span.2.2.2.2.1 (mkBuf "B" [1, 2, 3, 4, 5, 6, 7, 8] 0 8) "f"
      67305985 ⟨"B", [1, 2, 3, 4, 5, 6, 7, 8], 4, 4, 0⟩ (by decide),
   sequential_reads_preserve_span.2.2.2.2.2.2 (mkBuf "B" [2, 65, 66, 9] 0 4) "f" [65, 66]
      ⟨"B", [2, 65, 66, 9], 3, 1, 0⟩ (by decide)⟩

/-! Destructuring lemmas for successful `parse` runs. -/

theorem imageNew_ok {w h : Int} {i : PImage} (hni : imageNew w h = .ok i) :
    0 ≤ w ∧ 0 ≤ h ∧ i = ⟨w, h, []⟩ := by
  unfold imageNew at hni
  split at hni
  · simp at hni
  · rename_i hneg
    push_neg at hneg
    simp only [Except.ok.injEq] at hni
    exact ⟨hneg.1, hneg.2, hni.symm⟩

theorem parseLoop_ok {P : ParserCtx} {data : List Nat} {w h : Nat}
    {tl tr tt tb : Int} {tw th : Nat} {st₂ : ParseSt}
    (hpl : parseLoop P data w h tl tr tt tb tw th = .ok st₂) :
    rowsLoop P tl tr tb tw th 0 th
      ⟨⟨"MapImage", data, 0 + tb * w, (w : Int) * h - tb * w, 0⟩, [], [], ∅, [], ∅⟩ =
      .ok st₂ := by
  unfold parseLoop at hpl
  split at hpl
  · simp at hpl
  · rename_i u b₁ heqSkip
    obtain ⟨-, rfl⟩ := skip_ok heqSkip
    split at hpl
    · simp at hpl
    · rename_i st' heqRows
      split at hpl
      · simp at hpl
      · simp only [Except.ok.injEq] at hpl
        rw [← hpl]
        exact heqRows

theorem assembleResult_ok {P : ParserCtx} {tw th : Int} {layer₀ : Option PImage}
    {st₂ : ParseSt} {res : ParseResult}
    (hra : assembleResult P tw th layer₀ st₂ = .ok res) :
    res.rooms = st₂.rooms ∧ res.cleaned = st₂.cleaned ∧
      (P.scale = 1 → res.image = some ⟨tw, th, st₂.pixels⟩) := by
  unfold assembleResult at hra
  split at hra
  · rename_i hscale
    split at hra
    · simp at hra
    · split at hra
      · split at hra
        · simp at hra
        · split at hra
          · simp at hra
          · simp only [Except.ok.injEq] at hra
            subst hra
            exact ⟨rfl, rfl, fun hs => absurd hs hscale.1⟩
      · simp only [Except.ok.injEq] at hra
        subst hra
        exact ⟨rfl, rfl, fun hs => absurd hs hscale.1⟩
  · simp only [Except.ok.injEq] at hra
    subst hra
    exact ⟨rfl, rfl, fun _ => rfl⟩

theorem parseWithTrims_ok {P : ParserCtx} {data : List Nat} {w h : Nat}
    {tl tr tt tb : Int} {res : ParseResult}
    (hok : parseWithTrims P data w h tl tr tt tb = .ok res) :
    (((w : Int) - tl - tr = 0 ∨ (h : Int) - tt - tb = 0) ∧ res = ⟨none, [], ∅, none⟩) ∨
    ((w : Int) - tl - tr ≠ 0 ∧ (h : Int) - tt - tb ≠ 0 ∧
      0 ≤ (w : Int) - tl - tr ∧ 0 ≤ (h : Int) - tt - tb ∧
      ∃ st₂ : ParseSt,
        parseLoop P data w h tl tr tt tb ((w : Int) - tl - tr).toNat
          ((h : Int) - tt - tb).toNat = .ok st₂ ∧
        res.rooms = st₂.rooms ∧ res.cleaned = st₂.cleaned ∧
        (P.scale = 1 →
          res.image = some ⟨(w : Int) - tl - tr, (h : Int) - tt - tb, st₂.pixels⟩)) := by
  unfold parseWithTrims at hok
  split at hok
  · rename_i hcond
    simp only [Except.ok.injEq] at hok
    exact Or.inl ⟨hcond, hok.symm⟩
  · rename_i hcond
    push_neg at hcond
    split at hok
    · simp at hok
    · rename_i img₀ heqImg
      obtain ⟨htw0, hth0, rfl⟩ := imageNew_ok heqImg
      by_cases hd : P.drawCleanedArea = true
      · simp only [hd, if_true, heqImg, Except.map] at hok
        split at hok
        · simp at hok
        · rename_i st₂ heqLoop
          obtain ⟨hr, hc, hi⟩ := assembleResult_ok hok
          exact Or.inr ⟨hcond.1, hcond.2, htw0, hth0, st₂, heqLoop, hr, hc, hi⟩
      · simp only [hd, Bool.false_eq_true, if_false] at hok
        split at hok
        · simp at hok
        · rename_i st₂ heqLoop
          obtain ⟨hr, hc, hi⟩ := assembleResult_ok hok
          exact Or.inr ⟨hcond.1, hcond.2, htw0, hth0, st₂, heqLoop, hr, hc, hi⟩

theorem parse_ok_destruct {P : ParserCtx} {data : List Nat} {w h : Nat} {res : ParseResult}
    (hok : parse P data w h = .ok res) :
    ((trimmedW P w = 0 ∨ trimmedH P h = 0) ∧ res = ⟨none, [], ∅, none⟩) ∨
    (trimmedW P w ≠ 0 ∧ trimmedH P h ≠ 0 ∧ 0 ≤ trimmedW P w ∧ 0 ≤ trimmedH P h ∧
      ∃ st₂ : ParseSt,
        rowsLoop P (trimL P w) (trimR P w) (trimB P h)
            (trimmedW P w).toNat (trimmedH P h).toNat 0 (trimmedH P h).toNat
            ⟨⟨"MapImage", data, 0 + trimB P h * w, (w : Int) * h - trimB P h * w, 0⟩,
              [], [], ∅, [], ∅⟩ = .ok st₂ ∧
        res.rooms = st₂.rooms ∧ res.cleaned = st₂.cleaned ∧
        (P.scale = 1 → res.image = some ⟨trimmedW P w, trimmedH P h, st₂.pixels⟩)) := by
  rw [parse] at hok
  rcases parseWithTrims_ok hok with ⟨hcond, hres⟩ | ⟨h1, h2, h3, h4, st₂, hloop, hr, hc, hi⟩
  · exact Or.inl ⟨hcond, hres⟩
  · exact Or.inr ⟨h1, h2, h3, h4, st₂, parseLoop_ok hloop, hr, hc, hi⟩

/-! ### Claim C5: trimmed dimensions and the empty sentinel

The decoder returns the sentinel only when a trimmed dimension is
exactly zero; a negative trimmed dimension (opposite trims adding up to
more than 100 percent) reaches `Image.new` with a negative size and
raises `ValueError`. -/

theorem trims_ctxTrim60 :
    trimL ctxTrim60 10 = 6 ∧ trimR ctxTrim60 10 = 6 ∧
      trimT ctxTrim60 10 = 0 ∧ trimB ctxTrim60 10 = 0 := by
  refine ⟨?_, ?_, pyInt_trim_zero rfl 10, pyInt_trim_zero rfl 10⟩
  · have hq : ctxTrim60.trimLeft * ((10 : ℕ) : ℚ) / 100 = 6 := by
      norm_num [ctxTrim60, ctxPlain]
    rw [trimL, hq]
    decide
  · have hq : ctxTrim60.trimRight * ((10 : ℕ) : ℚ) / 100 = 6 := by
      norm_num [ctxTrim60, ctxPlain]
    rw [trimR, hq]
    decide

theorem trims_ctxTrim50 :
    trimL ctxTrim50 2 = 1 ∧ trimR ctxTrim50 2 = 1 := by
  constructor
  · have hq : ctxTrim50.trimLeft * ((2 : ℕ) : ℚ) / 100 = 1 := by
      norm_num [ctxTrim50, ctxPlain]
    rw [trimL, hq]
    decide
  · have hq : ctxTrim50.trimRight * ((2 : ℕ) : ℚ) / 100 = 1 := by
      norm_num [ctxTrim50, ctxPlain]
    rw [trimR, hq]
    decide

/-- C5 counterexample: with source width 10 and left and right trims of
60 percent each, the trimmed width is -2, which is nonpositive, yet the
decoder does not return the empty sentinel: it raises `ValueError`
(from `Image.new` with a negative size). -/
theorem trim_collapse_negative_cex :
    trimmedW ctxTrim60 10 = -2 ∧
    parse ctxTrim60 (List.replicate 100 0) 10 10 = .error .valueError := by
  obtain ⟨hl, hr, ht, hb⟩ := trims_ctxTrim60
  constructor
  · rw [trimmedW, hl, hr]
    decide
  · rw [parse, hl, hr, ht, hb]
    decide

/-- C5 amended: (1) at scale 1, a successful decode that returns a
bitmap gives it dimensions `source - floor(trim_a*dim/100) -
floor(trim_b*dim/100)` per axis; (2) when either trimmed dimension is
exactly zero the decoder returns the empty sentinel; (3) when a trimmed
dimension is negative (and neither is zero) the decoder raises
`ValueError` instead of returning the sentinel. -/
theorem trimmed_dims_behavior :
    (∀ (P : ParserCtx) (data : List Nat) (w h : Nat) (res : ParseResult) (img : PImage),
      0 ≤ P.trimLeft → 0 ≤ P.trimRight → 0 ≤ P.trimTop → 0 ≤ P.trimBottom →
      P.scale = 1 → parse P data w h = .ok res → res.image = some img →
      img.w = (w : Int) - ⌊P.trimLeft * w / 100⌋ - ⌊P.trimRight * w / 100⌋ ∧
        img.h = (h : Int) - ⌊P.trimTop * h / 100⌋ - ⌊P.trimBottom * h / 100⌋) ∧
    (∀ (P : ParserCtx) (data : List Nat) (w h : Nat),
      (trimmedW P w = 0 ∨ trimmedH P h = 0) →
      parse P data w h = .ok ⟨none, [], ∅, none⟩) ∧
    (∀ (P : ParserCtx) (data : List Nat) (w h : Nat),
      (trimmedW P w < 0 ∨ trimmedH P h < 0) → trimmedW P w ≠ 0 → trimmedH P h ≠ 0 →
      parse P data w h = .error .valueError) := by
  refine ⟨?_, ?_, ?_⟩
  · intro P data w h res img hL hR hT hB hs hok himg
    have hLw : (0 : ℚ) ≤ P.trimLeft * w / 100 :=
      div_nonneg (mul_nonneg hL (Nat.cast_nonneg w)) (by norm_num)
    have hRw : (0 : ℚ) ≤ P.trimRight * w / 100 :=
      div_nonneg (mul_nonneg hR (Nat.cast_nonneg w)) (by norm_num)
    have hTh : (0 : ℚ) ≤ P.trimTop * h / 100 :=
      div_nonneg (mul_nonneg hT (Nat.cast_nonneg h)) (by norm_num)
    have hBh : (0 : ℚ) ≤ P.trimBottom * h / 100 :=
      div_nonneg (mul_nonneg hB (Nat.cast_nonneg h)) (by norm_num)
    rcases parse_ok_destruct hok with ⟨-, rfl⟩ | ⟨-, -, -, -, st₂, -, -, -, hi⟩
    · simp at himg
    · rw [hi hs] at himg
      obtain rfl : img = ⟨trimmedW P w, trimmedH P h, st₂.pixels⟩ := by
        simpa using himg.symm
      refine ⟨?_, ?_⟩
      · show trimmedW P w = _
        unfold trimmedW trimL trimR
        rw [pyInt_eq_floor hLw, pyInt_eq_floor hRw]
      · show trimmedH P h = _
        unfold trimmedH trimT trimB
        rw [pyInt_eq_floor hTh, pyInt_eq_floor hBh]
  · intro P data w h hz
    unfold trimmedW trimmedH at hz
    rw [parse, parseWithTrims, if_pos hz]
  · intro P data w h hneg hW hH
    unfold trimmedW trimmedH at hneg
    unfold trimmedW at hW
    unfold trimmedH at hH
    rw [parse, parseWithTrims, if_neg (by tauto)]
    have heqn : imageNew ((w : Int) - trimL P w - trimR P w)
        ((h : Int) - trimT P h - trimB P h) = .error .valueError := by
      rw [imageNew, if_pos hneg]
    rw [heqn]

/-- C5 witness: the three parts of the amended dimension theorem at
concrete inputs: an untrimmed 1x1 decode, a decode whose trimmed width
collapses to exactly zero, and one whose trimmed width is negative. -/
theorem trimmed_dims_behavior_witness :
    ((1 : Int) = 1 - ⌊ctxPlain.trimLeft * (1 : ℕ) / 100⌋ - ⌊ctxPlain.trimRight * (1 : ℕ) / 100⌋ ∧
      (1 : Int) = 1 - ⌊ctxPlain.trimTop * (1 : ℕ) / 100⌋ - ⌊ctxPlain.trimBottom * (1 : ℕ) / 100⌋) ∧
    parse ctxTrim50 [] 2 1 = .ok ⟨none, [], ∅, none⟩ ∧
    parse ctxTrim60 [] 10 10 = .error .valueError := by
  obtain ⟨hl, hr, ht, hb⟩ := trims_ctxTrim60
  refine ⟨?_, ?_, ?_⟩
  · exact trimmed_dims_behavior.1 ctxPlain [12] 1 1
      ⟨some ⟨1, 1, [((0, 0), 2012)]⟩, [(12, ⟨0, 0, 0, 0⟩)], ∅, none⟩
      ⟨1, 1, [((0, 0), 2012)]⟩
      (by norm_num [ctxPlain]) (by norm_num [ctxPlain])
      (by norm_num [ctxPlain]) (by norm_num [ctxPlain]) rfl
      (by rw [parse, (trims_ctxPlain 1).1, (trims_ctxPlain 1).2.1,
            (trims_ctxPlain 1).2.2.1, (trims_ctxPlain 1).2.2.2]
          decide)
      rfl
  · exact trimmed_dims_behavior.2.1 ctxTrim50 [] 2 1
      (Or.inl (by rw [trimmedW, trims_ctxTrim50.1, trims_ctxTrim50.2]; decide))
  · exact trimmed_dims_behavior.2.2 ctxTrim60 [] 10 10
      (Or.inl (by rw [trimmedW, hl, hr]; decide))
      (by rw [trimmedW, hl, hr]; decide)
      (by rw [trimmedH, ht, hb]; decide)

/-! Lemmas about the pixel loop, shared by claims C4, C7 and C9. -/

theorem pyGet_natCast (data : List Nat) (o : Nat) :
    pyGet data (o : Int) = data.get? o := by
  rw [pyGet, if_pos (Int.natCast_nonneg o)]
  simp

theorem get_uint8_in {b : Buf} {o : Nat} (ho : b.offs = (o : Int)) (hlen : ¬b.len < 1)
    (hov : o < b.data.length) (f : String) :
    b.get_uint8 f = (.ok (b.data.getD o 0),
      { b with offs := b.offs + 1, len := b.len - 1 }) := by
  rw [Buf.get_uint8, if_neg hlen]
  simp only [add_sub_cancel_right, ho]
  rw [pyGet_natCast, List.getD_eq_get?, List.get?_eq_get hov]
  rfl

theorem get_uint8_out {b : Buf} {o : Nat} (ho : b.offs = (o : Int)) (hlen : ¬b.len < 1)
    (hov : b.data.length ≤ o) (f : String) :
    b.get_uint8 f = (.error .indexError,
      { b with offs := b.offs + 1, len := b.len - 1 }) := by
  rw [Buf.get_uint8, if_neg hlen]
  simp only [add_sub_cancel_right, ho]
  rw [pyGet_natCast, List.get?_eq_none.2 hov]

theorem colorMap_some_roomNone {P : ParserCtx} {v : Nat} {c : Nat}
    (hcm : colorMap P v = some c) : roomNumberOf v = none := by
  unfold colorMap at hcm
  unfold MAP_OUTSIDE MAP_WALL MAP_SCAN MAP_NEW_DISCOVERED_AREA at hcm
  split_ifs at hcm with h1 h2 h3 h4 <;> subst_vars <;> decide

theorem accUpd_fst (d : List (Nat × RoomBox)) (s : Finset Nat) (v : Nat) (rx ry : Int) :
    (accUpd (d, s) v rx ry).1 =
      match roomNumberOf v with
      | none => d
      | some rn => dictSet d rn (mergeBox (dictGet d rn) rx ry) := by
  unfold accUpd
  cases roomNumberOf v <;> rfl

theorem cellStep_ok_acc {P : ParserCtx} {tl tb : Int} {th iy ix : Nat}
    {st st' : ParseSt}
    (hcs : cellStep P tl tb th iy ix st = .ok st') :
    ∃ v : Nat, pyGet st.buf.data st.buf.offs = some v ∧
      st'.buf = { st.buf with offs := st.buf.offs + 1, len := st.buf.len - 1 } ∧
      (st'.rooms, st'.cleaned) =
        accUpd (st.rooms, st.cleaned) v ((ix : Int) + tl) ((iy : Int) + tb) := by
  unfold cellStep at hcs
  split at hcs
  · simp at hcs
  · rename_i v buf' hequ
    obtain ⟨rfl, hv⟩ := get_uint8_ok hequ
    refine ⟨v, hv, ?_⟩
    split at hcs
    · rename_i c hcm
      simp only [Except.ok.injEq] at hcs
      subst hcs
      refine ⟨rfl, ?_⟩
      rw [accUpd]
      rw [colorMap_some_roomNone hcm]
    · rename_i hcm
      split at hcs
      · rename_i hrange
        unfold MAP_ROOM_MIN MAP_SELECTED_ROOM_MAX at hrange
        split at hcs
        · rename_i hplain
          unfold MAP_SELECTED_ROOM_MIN at hplain
          simp only [Except.ok.injEq] at hcs
          subst hcs
          refine ⟨rfl, ?_⟩
          rw [accUpd]
          have hrn : roomNumberOf v = some v := by
            unfold roomNumberOf
            rw [if_pos ⟨hrange.1, by omega⟩]
          rw [hrn]
          unfold addRoom mergeBox
          have h60 : ¬60 ≤ v := by omega
          simp only [if_neg h60]
          cases dictGet st.rooms v <;> rfl
        · rename_i hsel
          unfold MAP_SELECTED_ROOM_MIN at hsel
          split at hcs
          · simp at hcs
          · simp only [Except.ok.injEq] at hcs
            subst hcs
            refine ⟨rfl, ?_⟩
            rw [accUpd]
            have hrn : roomNumberOf v = some (v - MAP_SELECTED_ROOM_MIN + MAP_ROOM_MIN) := by
              unfold roomNumberOf MAP_SELECTED_ROOM_MIN MAP_ROOM_MIN
              rw [if_neg (by omega), if_pos ⟨by omega, hrange.2⟩]
            rw [hrn]
            unfold addRoom mergeBox
            have h60 : 60 ≤ v := by omega
            simp only [if_pos h60]
            cases dictGet st.rooms (v - MAP_SELECTED_ROOM_MIN + MAP_ROOM_MIN) <;> rfl
      · simp at hcs

theorem colsLoop_ok_acc (P : ParserCtx) (tl tb : Int) (th iy : Nat) :
    ∀ (n ix : Nat) (st st' : ParseSt) (o : Nat), st.buf.offs = (o : Int) →
      colsLoop P tl tb th iy ix n st = .ok st' →
      st'.buf.name = st.buf.name ∧ st'.buf.data = st.buf.data ∧
      st'.buf.imageBeginning = st.buf.imageBeginning ∧
      st'.buf.offs = st.buf.offs + n ∧ st'.buf.len = st.buf.len - n ∧
      (∀ k < n, o + k < st.buf.data.length) ∧
      (st'.rooms, st'.cleaned) =
        accFold (st.rooms, st.cleaned)
          (rowCells st.buf.data o ((ix : Int) + tl) ((iy : Int) + tb) n) := by
  intro n
  induction n with
  | zero =>
    intro ix st st' o ho hcl
    unfold colsLoop at hcl
    simp only [Except.ok.injEq] at hcl
    subst hcl
    refine ⟨rfl, rfl, rfl, by simp, by simp, by omega, rfl⟩
  | succ n IH =>
    intro ix st st' o ho hcl
    unfold colsLoop at hcl
    split at hcl
    · simp at hcl
    · rename_i st₁ heq
      obtain ⟨v, hv, hbuf, hacc⟩ := cellStep_ok_acc heq
      rw [ho, pyGet_natCast] at hv
      obtain ⟨hlt, hval⟩ := List.get?_eq_some.1 hv
      have hgetD : st.buf.data.getD o 0 = v := by
        rw [List.getD_eq_get?, hv]
        rfl
      have ho₁ : st₁.buf.offs = ((o + 1 : Nat) : Int) := by
        rw [hbuf, ho]
        push_cast
        ring
      obtain ⟨h₁, h₂, h₃, h₄, h₅, h₆, h₇⟩ := IH (ix + 1) st₁ st' (o + 1) ho₁ hcl
      have hdata₁ : st₁.buf.data = st.buf.data := by rw [hbuf]
      refine ⟨?_, ?_, ?_, ?_, ?_, ?_, ?_⟩
      · rw [h₁, hbuf]
      · rw [h₂, hdata₁]
      · rw [h₃, hbuf]
      · rw [h₄, hbuf, ho]
        push_cast
        ring
      · rw [h₅, hbuf]
        push_cast
        ring
      · intro k hk
        rcases Nat.eq_zero_or_pos k with rfl | hkpos
        · simpa using hlt
        · have := h₆ (k - 1) (by omega)
          rw [hdata₁] at this
          omega
      · have hrow : rowCells st.buf.data o ((ix : Int) + tl) ((iy : Int) + tb) (n + 1) =
            (v, (ix : Int) + tl, (iy : Int) + tb) ::
              rowCells st.buf.data (o + 1) (((ix : Int) + tl) + 1) ((iy : Int) + tb) n := by
          rw [rowCells, hgetD]
        rw [hrow]
        have hcast : ((ix + 1 : Nat) : Int) + tl = ((ix : Int) + tl) + 1 := by
          push_cast
          ring
        rw [h₇, hdata₁, hacc, hcast]
        rfl

theorem skip_succeeds {b : Buf} {n : Int} (hno : ¬b.len < n) (f : String) :
    b.skip f n = (.ok (), { b with offs := b.offs + n, len := b.len - n }) := by
  rw [Buf.skip, if_neg hno]

theorem accFold_append (a : List (Nat × RoomBox) × Finset Nat)
    (l₁ l₂ : List (Nat × Int × Int)) :
    accFold a (l₁ ++ l₂) = accFold (accFold a l₁) l₂ := by
  induction l₁ generalizing a with
  | nil => rfl
  | cons c rest IH =>
    obtain ⟨v, rx, ry⟩ := c
    rw [List.cons_append, accFold, accFold, IH]

theorem rowStep_ok_acc {P : ParserCtx} {tl tr tb : Int} {tw th iy : Nat}
    {st st' : ParseSt} {o : Nat}
    (ho : st.buf.offs = (o : Int)) (htl : 0 ≤ tl)
    (hrs : rowStep P tl tr tb tw th iy st = .ok st') :
    st'.buf.name = st.buf.name ∧ st'.buf.data = st.buf.data ∧
    st'.buf.imageBeginning = st.buf.imageBeginning ∧
    st'.buf.offs = st.buf.offs + tl + tw + tr ∧
    st'.buf.len = st.buf.len - tl - tw - tr ∧
    (st'.rooms, st'.cleaned) =
      accFold (st.rooms, st.cleaned)
        (rowCells st.buf.data (o + tl.toNat) tl ((iy : Int) + tb) tw) := by
  unfold rowStep at hrs
  split at hrs
  · simp at hrs
  · rename_i u b₁ heq₁
    obtain ⟨-, rfl⟩ := skip_ok heq₁
    split at hrs
    · simp at hrs
    · rename_i st₂ heq₂
      have homid : (⟨{ st.buf with offs := st.buf.offs + tl, len := st.buf.len - tl },
          st.pixels, st.rooms, st.cleaned, st.cleanedPixels, st.unknown⟩ : ParseSt).buf.offs =
          ((o + tl.toNat : Nat) : Int) := by
        show st.buf.offs + tl = _
        rw [ho]
        push_cast [Int.toNat_of_nonneg htl]
        ring
      obtain ⟨h₁, h₂, h₃, h₄, h₅, -, h₇⟩ :=
        colsLoop_ok_acc P tl tb th iy tw 0 _ st₂ (o + tl.toNat) homid heq₂
      split at hrs
      · simp at hrs
      · rename_i u₂ b₃ heq₃
        obtain ⟨-, rfl⟩ := skip_ok heq₃
        simp only [Except.ok.injEq] at hrs
        subst hrs
        refine ⟨h₁, h₂, h₃, ?_, ?_, ?_⟩
        · show st₂.buf.offs + tr = _
          rw [h₄]
        · show st₂.buf.len - tr = _
          rw [h₅]
        · show (st₂.rooms, st₂.cleaned) = _
          rw [h₇]
          norm_num

theorem rowsLoop_ok_acc {P : ParserCtx} {tl tr tb : Int} {tw th : Nat}
    (htl : 0 ≤ tl) (htr : 0 ≤ tr) :
    ∀ (m iy : Nat) (st st' : ParseSt) (o : Nat), st.buf.offs = (o : Int) →
      rowsLoop P tl tr tb tw th iy m st = .ok st' →
      st'.buf.data = st.buf.data ∧
      (st'.rooms, st'.cleaned) =
        accFold (st.rooms, st.cleaned)
          (gridCells st.buf.data tl.toNat tr.toNat tw tl tb o iy m) := by
  intro m
  induction m with
  | zero =>
    intro iy st st' o ho hrl
    unfold rowsLoop at hrl
    simp only [Except.ok.injEq] at hrl
    subst hrl
    exact ⟨rfl, rfl⟩
  | succ m IH =>
    intro iy st st' o ho hrl
    unfold rowsLoop at hrl
    split at hrl
    · simp at hrl
    · rename_i st₁ heq
      obtain ⟨g₁, g₂, g₃, g₄, g₅, g₆⟩ := rowStep_ok_acc ho htl heq
      have ho₁ : st₁.buf.offs = ((o + (tl.toNat + tw + tr.toNat) : Nat) : Int) := by
        rw [g₄, ho]
        push_cast [Int.toNat_of_nonneg htl, Int.toNat_of_nonneg htr]
        ring
      obtain ⟨k₁, k₂⟩ := IH (iy + 1) st₁ st' (o + (tl.toNat + tw + tr.toNat)) ho₁ hrl
      refine ⟨by rw [k₁, g₂], ?_⟩
      rw [gridCells]
      rw [accFold_append, k₂, g₂, g₆]
      have harith : o + (tl.toNat + tw + tr.toNat) = o + tl.toNat + tw + tr.toNat := by
        omega
      rw [harith]

/-! Dict lemmas. -/

theorem dictGet_dictSet_self (d : List (Nat × RoomBox)) (k : Nat) (v : RoomBox) :
    dictGet (dictSet d k v) k = some v := by
  induction d with
  | nil => simp [dictSet, dictGet]
  | cons p rest IH =>
    obtain ⟨k', v'⟩ := p
    by_cases hk : k' = k
    · simp [dictSet, hk, dictGet]
    · simp only [dictSet, if_neg hk]
      rw [dictGet, if_neg hk]
      exact IH

theorem dictGet_dictSet_ne (d : List (Nat × RoomBox)) (k : Nat) (v : RoomBox)
    (r : Nat) (hne : r ≠ k) : dictGet (dictSet d k v) r = dictGet d r := by
  have hkr : ¬k = r := fun hcontra => hne hcontra.symm
  induction d with
  | nil => simp [dictSet, dictGet, hkr]
  | cons p rest IH =>
    obtain ⟨k', v'⟩ := p
    by_cases hk : k' = k
    · subst hk
      simp only [dictSet, if_pos rfl]
      simp only [dictGet, if_neg hkr]
    · simp only [dictSet, if_neg hk]
      simp only [dictGet]
      split
      · rfl
      · exact IH

theorem mem_dictSet {d : List (Nat × RoomBox)} {k : Nat} {v : RoomBox}
    {p : Nat × RoomBox} (hmem : p ∈ dictSet d k v) : p = (k, v) ∨ p ∈ d := by
  induction d with
  | nil => simpa [dictSet] using hmem
  | cons q rest IH =>
    obtain ⟨k', v'⟩ := q
    by_cases hk : k' = k
    · simp only [dictSet, if_pos hk] at hmem
      rcases List.mem_cons.1 hmem with rfl | hmem
      · exact Or.inl rfl
      · exact Or.inr (List.mem_cons_of_mem _ hmem)
    · simp only [dictSet, if_neg hk] at hmem
      rcases List.mem_cons.1 hmem with rfl | hmem
      · exact Or.inr (List.mem_cons_self _ _)
      · rcases IH hmem with hp | hp
        · exact Or.inl hp
        · exact Or.inr (List.mem_cons_of_mem _ hp)

/-! ### Claim C9: cleaned ids are room keys and all ids are plain room
ids -/

theorem roomNumberOf_range {v rn : Nat} (hrn : roomNumberOf v = some rn) :
    10 ≤ rn ∧ rn ≤ 59 := by
  unfold roomNumberOf at hrn
  split_ifs at hrn with h1 h2 <;> simp only [Option.some.injEq] at hrn <;> omega

theorem accUpd_inv {a : List (Nat × RoomBox) × Finset Nat} (hinv : IdsInv a)
    (v : Nat) (rx ry : Int) : IdsInv (accUpd a v rx ry) := by
  obtain ⟨h1, h2, h3⟩ := hinv
  unfold accUpd
  cases hrn : roomNumberOf v with
  | none => exact ⟨h1, h2, h3⟩
  | some rn =>
    obtain ⟨hr1, hr2⟩ := roomNumberOf_range hrn
    refine ⟨?_, ?_, ?_⟩
    · intro r hr
      by_cases hreq : r = rn
      · subst hreq
        show (dictGet (dictSet a.1 r _) r).isSome = true
        rw [dictGet_dictSet_self]
        rfl
      · show (dictGet (dictSet a.1 rn _) r).isSome = true
        rw [dictGet_dictSet_ne _ _ _ _ hreq]
        refine h1 r ?_
        by_cases h60 : 60 ≤ v
        · simp only [if_pos h60] at hr
          exact (Finset.mem_insert.1 hr).resolve_left hreq
        · simpa only [if_neg h60] using hr
    · intro r hr
      by_cases h60 : 60 ≤ v
      · simp only [if_pos h60] at hr
        rcases Finset.mem_insert.1 hr with rfl | hr
        · exact ⟨hr1, hr2⟩
        · exact h2 r hr
      · exact h2 r (by simpa only [if_neg h60] using hr)
    · intro p hp
      rcases mem_dictSet hp with rfl | hp
      · exact ⟨hr1, hr2⟩
      · exact h3 p hp

theorem colsLoop_inv {P : ParserCtx} {tl tb : Int} {th iy : Nat} :
    ∀ (n ix : Nat) (st st' : ParseSt), colsLoop P tl tb th iy ix n st = .ok st' →
      IdsInv (st.rooms, st.cleaned) → IdsInv (st'.rooms, st'.cleaned) := by
  intro n
  induction n with
  | zero =>
    intro ix st st' hcl hinv
    unfold colsLoop at hcl
    simp only [Except.ok.injEq] at hcl
    subst hcl
    exact hinv
  | succ n IH =>
    intro ix st st' hcl hinv
    unfold colsLoop at hcl
    split at hcl
    · simp at hcl
    · rename_i st₁ heq
      obtain ⟨v, -, -, hacc⟩ := cellStep_ok_acc heq
      refine IH (ix + 1) st₁ st' hcl ?_
      rw [hacc]
      exact accUpd_inv hinv v _ _

theorem rowsLoop_inv {P : ParserCtx} {tl tr tb : Int} {tw th : Nat} :
    ∀ (m iy : Nat) (st st' : ParseSt), rowsLoop P tl tr tb tw th iy m st = .ok st' →
      IdsInv (st.rooms, st.cleaned) → IdsInv (st'.rooms, st'.cleaned) := by
  intro m
  induction m with
  | zero =>
    intro iy st st' hrl hinv
    unfold rowsLoop at hrl
    simp only [Except.ok.injEq] at hrl
    subst hrl
    exact hinv
  | succ m IH =>
    intro iy st st' hrl hinv
    unfold rowsLoop at hrl
    split at hrl
    · simp at hrl
    · rename_i st₁ heq
      refine IH (iy + 1) st₁ st' hrl ?_
      unfold rowStep at heq
      split at heq
      · simp at heq
      · split at heq
        · simp at heq
        · rename_i st₂ heq₂
          split at heq
          · simp at heq
          · simp only [Except.ok.injEq] at heq
            subst heq
            exact colsLoop_inv tw 0 _ st₂ heq₂ hinv

/-- C9: on every successful decode, every cleaned-area id is a key of
the returned room map, and every id in the cleaned set or the room map
lies in the plain room range [10, 59]. -/
theorem cleaned_ids_are_room_keys {P : ParserCtx} {data : List Nat} {w h : Nat}
    {res : ParseResult} (hok : parse P data w h = .ok res) :
    (∀ r ∈ res.cleaned, (dictGet res.rooms r).isSome = true) ∧
    (∀ r ∈ res.cleaned, 10 ≤ r ∧ r ≤ 59) ∧
    (∀ p ∈ res.rooms, 10 ≤ p.1 ∧ p.1 ≤ 59) := by
  have hinit : IdsInv (([] : List (Nat × RoomBox)), (∅ : Finset Nat)) :=
    ⟨fun r hr => absurd hr (Finset.not_mem_empty r),
     fun r hr => absurd hr (Finset.not_mem_empty r),
     fun p hp => absurd hp (List.not_mem_nil p)⟩
  rcases parse_ok_destruct hok with ⟨-, rfl⟩ | ⟨-, -, -, -, st₂, hrows, hr, hc, -⟩
  · exact hinit
  · have hinv := rowsLoop_inv _ 0 _ st₂ hrows hinit
    rw [hr, hc]
    exact hinv

/-- C9 witness: the invariant theorem applied to a successful decode of
a 1x1 raster holding the selected-room byte 60 (room 10, cleaned). -/
theorem cleaned_ids_are_room_keys_witness :
    (∀ r ∈ ({10} : Finset Nat), (dictGet [(10, (⟨0, 0, 0, 0⟩ : RoomBox))] r).isSome = true) ∧
    (∀ r ∈ ({10} : Finset Nat), 10 ≤ r ∧ r ≤ 59) ∧
    (∀ p ∈ [(10, (⟨0, 0, 0, 0⟩ : RoomBox))], 10 ≤ p.1 ∧ p.1 ≤ 59) :=
  @cleaned_ids_are_room_keys ctxPlain [60] 1 1
    ⟨some ⟨1, 1, [((0, 0), 2010)]⟩, [(10, ⟨0, 0, 0, 0⟩)], {10}, none⟩
    (by rw [parse, (trims_ctxPlain 1).1, (trims_ctxPlain 1).2.1,
          (trims_ctxPlain 1).2.2.1, (trims_ctxPlain 1).2.2.2]
        decide)

/-! ### Claim C4: decoding a buffer shorter than width*height

The cursor is created with length `width * height` regardless of the
true buffer length, so its underrun check never fires inside `parse`;
reading past the end of the data raises a bare `IndexError` instead of
the named underrun failure. -/

theorem skip_zero {b : Buf} (h0 : 0 ≤ b.len) (f : String) :
    b.skip f 0 = (.ok (), b) := by
  rw [Buf.skip, if_neg (by omega)]
  simp

theorem cellStep_progress {P : ParserCtx} {tl tb : Int} {th iy ix : Nat}
    {st : ParseSt} {o : Nat}
    (ho : st.buf.offs = (o : Int)) (hlen : ¬st.buf.len < 1)
    (hov : o < st.buf.data.length)
    (hsafe : safeByte P (st.buf.data.getD o 0)) :
    ∃ st', cellStep P tl tb th iy ix st = .ok st' ∧
      st'.buf = { st.buf with offs := st.buf.offs + 1, len := st.buf.len - 1 } := by
  unfold cellStep
  rw [get_uint8_in ho hlen hov]
  cases hcm : colorMap P (st.buf.data.getD o 0) with
  | some c =>
    simp only [hcm]
    exact ⟨_, rfl, rfl⟩
  | none =>
    rcases hsafe with hsome | ⟨h10, h109, hsel⟩
    · rw [hcm] at hsome
      simp at hsome
    · have hrange : MAP_ROOM_MIN ≤ st.buf.data.getD o 0 ∧
          st.buf.data.getD o 0 ≤ MAP_SELECTED_ROOM_MAX := by
        unfold MAP_ROOM_MIN MAP_SELECTED_ROOM_MAX
        omega
      simp only [hcm, if_pos hrange]
      by_cases hv60 : st.buf.data.getD o 0 < MAP_SELECTED_ROOM_MIN
      · rw [if_pos hv60]
        exact ⟨_, rfl, rfl⟩
      · rw [if_neg hv60]
        unfold MAP_SELECTED_ROOM_MIN at hv60
        have hdraw : P.drawCleanedArea = false := by
          rcases hsel with hv | hdraw
          · omega
          · exact hdraw
        rw [if_neg (by simp [hdraw])]
        exact ⟨_, rfl, rfl⟩

theorem cellStep_index_err {P : ParserCtx} {tl tb : Int} {th iy ix : Nat}
    {st : ParseSt} {o : Nat}
    (ho : st.buf.offs = (o : Int)) (hlen : ¬st.buf.len < 1)
    (hov : st.buf.data.length ≤ o) :
    cellStep P tl tb th iy ix st = .error .indexError := by
  unfold cellStep
  rw [get_uint8_out ho hlen hov]

theorem colsLoop_progress {P : ParserCtx} {tl tb : Int} {th iy : Nat} :
    ∀ (n ix : Nat) (st : ParseSt) (o : Nat), st.buf.offs = (o : Int) →
      (n : Int) ≤ st.buf.len → o + n ≤ st.buf.data.length →
      (∀ j < st.buf.data.length, safeByte P (st.buf.data.getD j 0)) →
      ∃ st', colsLoop P tl tb th iy ix n st = .ok st' ∧
        st'.buf = { st.buf with offs := st.buf.offs + n, len := st.buf.len - n } := by
  intro n
  induction n with
  | zero =>
    intro ix st o ho hn hb hs
    refine ⟨st, by rw [colsLoop], ?_⟩
    show st.buf = _
    push_cast
    simp
  | succ n IH =>
    intro ix st o ho hn hb hs
    obtain ⟨st₁, hcs, hbuf₁⟩ := cellStep_progress ho (by omega) (by omega)
      (hs o (by omega))
    have ho₁ : st₁.buf.offs = ((o + 1 : Nat) : Int) := by
      rw [hbuf₁, ho]
      push_cast
      ring
    have hdata₁ : st₁.buf.data = st.buf.data := by rw [hbuf₁]
    have hlen₁ : st₁.buf.len = st.buf.len - 1 := by rw [hbuf₁]
    obtain ⟨st', hcl, hbuf'⟩ := IH (ix + 1) st₁ (o + 1) ho₁
      (by rw [hlen₁]; push_cast at hn ⊢; omega)
      (by rw [hdata₁]; omega)
      (by rw [hdata₁]; exact hs)
    refine ⟨st', ?_, ?_⟩
    · rw [colsLoop, hcs]
      exact hcl
    · rw [hbuf', hbuf₁]
      simp only [Buf.mk.injEq]
      refine ⟨trivial, trivial, ?_, ?_, trivial⟩
      · push_cast
        ring
      · push_cast
        ring

theorem colsLoop_index_err {P : ParserCtx} {tl tb : Int} {th iy : Nat} :
    ∀ (n ix : Nat) (st : ParseSt) (o : Nat), st.buf.offs = (o : Int) → 1 ≤ n →
      (n : Int) ≤ st.buf.len → st.buf.data.length < o + n →
      (∀ j < st.buf.data.length, safeByte P (st.buf.data.getD j 0)) →
      colsLoop P tl tb th iy ix n st = .error .indexError := by
  intro n
  induction n with
  | zero =>
    intro ix st o ho h1 hn hb hs
    omega
  | succ n IH =>
    intro ix st o ho h1 hn hb hs
    by_cases hin : o < st.buf.data.length
    · obtain ⟨st₁, hcs, hbuf₁⟩ := cellStep_progress ho (by omega) hin (hs o hin)
      have ho₁ : st₁.buf.offs = ((o + 1 : Nat) : Int) := by
        rw [hbuf₁, ho]
        push_cast
        ring
      have hdata₁ : st₁.buf.data = st.buf.data := by rw [hbuf₁]
      have hlen₁ : st₁.buf.len = st.buf.len - 1 := by rw [hbuf₁]
      rw [colsLoop, hcs]
      refine IH (ix + 1) st₁ (o + 1) ho₁ (by omega)
        (by rw [hlen₁]; push_cast at hn ⊢; omega)
        (by rw [hdata₁]; omega)
        (by rw [hdata₁]; exact hs)
    · rw [colsLoop, cellStep_index_err ho (by omega) (by omega)]

theorem rowStep_zero_ok {P : ParserCtx} {tb : Int} {tw th iy : Nat}
    {st st₂ : ParseSt} (h0 : 0 ≤ st.buf.len)
    (hcols : colsLoop P 0 tb th iy 0 tw st = .ok st₂) (h2 : 0 ≤ st₂.buf.len) :
    rowStep P 0 0 tb tw th iy st = .ok st₂ := by
  unfold rowStep
  simp only [skip_zero h0, skip_zero h2, hcols]

theorem rowStep_zero_err {P : ParserCtx} {tb : Int} {tw th iy : Nat}
    {st : ParseSt} {e : PyErr} (h0 : 0 ≤ st.buf.len)
    (hcols : colsLoop P 0 tb th iy 0 tw st = .error e) :
    rowStep P 0 0 tb tw th iy st = .error e := by
  unfold rowStep
  simp only [skip_zero h0, hcols]

theorem rowsLoop_zero_trim_index_err {P : ParserCtx} {tb : Int} {tw th : Nat}
    (htw : 1 ≤ tw) :
    ∀ (m iy : Nat) (st : ParseSt) (o : Nat), st.buf.offs = (o : Int) →
      (m : Int) * tw ≤ st.buf.len → o ≤ st.buf.data.length →
      st.buf.data.length < o + m * tw →
      (∀ j < st.buf.data.length, safeByte P (st.buf.data.getD j 0)) →
      rowsLoop P 0 0 tb tw th iy m st = .error .indexError := by
  intro m
  induction m with
  | zero =>
    intro iy st o ho hm hole hlen hs
    simp only [Nat.zero_mul, Nat.add_zero] at hlen
    omega
  | succ m IH =>
    intro iy st o ho hm hole hlen hs
    have hmta : (0 : Int) ≤ (m : Int) * tw := by positivity
    have h0 : (0 : Int) ≤ st.buf.len := by
      have : ((m + 1 : Nat) : Int) * tw ≤ st.buf.len := hm
      push_cast at this
      nlinarith
    by_cases hrow : o + tw ≤ st.buf.data.length
    · have htwlen : (tw : Int) ≤ st.buf.len := by
        have : ((m + 1 : Nat) : Int) * tw ≤ st.buf.len := hm
        push_cast at this
        nlinarith
      obtain ⟨st₂, hcols, hbuf₂⟩ := colsLoop_progress tw 0 st o ho htwlen hrow hs
      have hlen₂ : st₂.buf.len = st.buf.len - tw := by rw [hbuf₂]
      have h2 : (0 : Int) ≤ st₂.buf.len := by
        rw [hlen₂]
        have : ((m + 1 : Nat) : Int) * tw ≤ st.buf.len := hm
        push_cast at this
        nlinarith
      have ho₂ : st₂.buf.offs = ((o + tw : Nat) : Int) := by
        rw [hbuf₂, ho]
        push_cast
        ring
      have hdata₂ : st₂.buf.data = st.buf.data := by rw [hbuf₂]
      rw [rowsLoop, rowStep_zero_ok h0 hcols h2]
      refine IH (iy + 1) st₂ (o + tw) ho₂ ?_ ?_ ?_ ?_
      · rw [hlen₂]
        have : ((m + 1 : Nat) : Int) * tw ≤ st.buf.len := hm
        push_cast at this ⊢
        nlinarith
      · rw [hdata₂]
        exact hrow
      · rw [hdata₂]
        have : o + (m + 1) * tw = o + tw + m * tw := by ring
        rw [this] at hlen
        linarith
      · rw [hdata₂]
        exact hs
    · have htwlen : (tw : Int) ≤ st.buf.len := by
        have : ((m + 1 : Nat) : Int) * tw ≤ st.buf.len := hm
        push_cast at this
        nlinarith
      have hcols := @colsLoop_index_err P 0 tb th iy tw 0 st o ho htw htwlen
        (by omega) hs
      rw [rowsLoop, rowStep_zero_err h0 hcols]

/-- C4 counterexample: `parse` on the one-byte buffer `[1]` with
`width*height = 2` fails with a bare `IndexError`, not with the
underrun `ValueError` naming the field and offset. -/
theorem short_buffer_cex :
    parse ctxPlain [1] 2 1 = .error .indexError ∧
    PyErr.indexError ≠ PyErr.underrun "MapImage" "pixel" 1 := by
  constructor
  · rw [parse, (trims_ctxPlain 2).1, (trims_ctxPlain 2).2.1,
      (trims_ctxPlain 1).2.2.1, (trims_ctxPlain 1).2.2.2]
    decide
  · intro hcontra
    cases hcontra

/-- C4 amended: with no trimming configured, no cleaned-area overlay
requested, and every buffer byte one the decoder survives, feeding a
buffer shorter than `width*height` raises a bare `IndexError` (carrying
neither field name nor offset) at the read of the first missing byte;
the named underrun failure cannot occur because the cursor length is
initialized to `width*height` rather than to the true buffer length.
The call returns only the error, so no partial bitmap or partial
room/cleaned-area result is observable. -/
theorem short_buffer_raises_index_err
    (P : ParserCtx) (data : List Nat) (w h : Nat)
    (hL : P.trimLeft = 0) (hR : P.trimRight = 0) (hT : P.trimTop = 0)
    (hB : P.trimBottom = 0) (hdraw : P.drawCleanedArea = false)
    (hsafe : ∀ v ∈ data, (colorMap P v).isSome = true ∨ (10 ≤ v ∧ v ≤ 109))
    (hshort : data.length < w * h) :
    parse P data w h = .error .indexError := by
  have hw1 : 1 ≤ w := by
    rcases Nat.eq_zero_or_pos w with rfl | hpos
    · simp at hshort
    · exact hpos
  have hh1 : 1 ≤ h := by
    rcases Nat.eq_zero_or_pos h with rfl | hpos
    · simp at hshort
    · exact hpos
  have htL : trimL P w = 0 := pyInt_trim_zero hL w
  have htR : trimR P w = 0 := pyInt_trim_zero hR w
  have htT : trimT P h = 0 := pyInt_trim_zero hT h
  have htB : trimB P h = 0 := pyInt_trim_zero hB h
  have hsafe' : ∀ j < data.length, safeByte P (data.getD j 0) := by
    intro j hj
    have hmem : data.getD j 0 ∈ data := by
      rw [List.getD_eq_get?, List.get?_eq_get hj]
      exact List.get_mem data j hj
    rcases hsafe _ hmem with hsome | ⟨h10, h109⟩
    · exact Or.inl hsome
    · exact Or.inr ⟨h10, h109, Or.inr hdraw⟩
  rw [parse, htL, htR, htT, htB]
  unfold parseWithTrims
  simp only [sub_zero, Int.toNat_natCast]
  rw [if_neg (by omega)]
  have himg : imageNew (w : Int) (h : Int) = .ok ⟨(w : Int), (h : Int), []⟩ := by
    rw [imageNew, if_neg (by omega)]
  simp only [himg, hdraw, Bool.false_eq_true, if_false]
  have hloop : parseLoop P data w h 0 0 0 0 w h = .error .indexError := by
    unfold parseLoop
    have hsk : (mkBuf "MapImage" data 0 ((w : Int) * h)).skip "trim_bottom"
        ((0 : Int) * w) = (.ok (), mkBuf "MapImage" data 0 ((w : Int) * h)) := by
      rw [zero_mul]
      exact skip_zero (by show (0 : Int) ≤ (w : Int) * h; positivity) _
    simp only [hsk]
    have hrl : rowsLoop P 0 0 0 w h 0 h
        ⟨mkBuf "MapImage" data 0 ((w : Int) * h), [], [], ∅, [], ∅⟩ =
        .error .indexError := by
      refine rowsLoop_zero_trim_index_err hw1 h 0 _ 0 ?_ ?_ ?_ ?_ hsafe'
      · show (0 : Int) = ((0 : ℕ) : Int)
        simp
      · show (h : Int) * w ≤ (w : Int) * h
        exact le_of_eq (by ring)
      · exact Nat.zero_le _
      · show data.length < 0 + h * w
        rw [Nat.zero_add, Nat.mul_comm h w]
        exact hshort
    simp only [hrl]
  simp only [hloop]

/-- C4 witness: the amended theorem applied to a two-byte buffer fed to
a 2x2 decode. -/
theorem short_buffer_raises_index_err_witness :
    parse ctxPlain [12, 60] 2 2 = .error .indexError :=
  short_buffer_raises_index_err ctxPlain [12, 60] 2 2 rfl rfl rfl rfl rfl
    (by decide) (by decide)

/-! ### Claim C7: room bounding boxes are exact min/max summaries -/

theorem cellsOf_append (r : Nat) (l₁ l₂ : List (Nat × Int × Int)) :
    cellsOf r (l₁ ++ l₂) = cellsOf r l₁ ++ cellsOf r l₂ :=
  List.filterMap_append _ _ _

theorem cellsOf_singleton (r v : Nat) (rx ry : Int) :
    cellsOf r [(v, rx, ry)] =
      if roomNumberOf v = some r then [(rx, ry)] else [] := by
  unfold cellsOf
  by_cases hrn : roomNumberOf v = some r
  · simp [hrn]
  · simp [hrn]

theorem mem_cellsOf {r : Nat} {l : List (Nat × Int × Int)} {p : Int × Int} :
    p ∈ cellsOf r l ↔
      ∃ c ∈ l, roomNumberOf c.1 = some r ∧ p = (c.2.1, c.2.2) := by
  unfold cellsOf
  rw [List.mem_filterMap]
  constructor
  · rintro ⟨c, hc, hf⟩
    split_ifs at hf with hrn
    simp only [Option.some.injEq] at hf
    exact ⟨c, hc, hrn, hf.symm⟩
  · rintro ⟨c, hc, hrn, rfl⟩
    exact ⟨c, hc, by rw [if_pos hrn]⟩

theorem cellsOf_eq_nil {r : Nat} {l : List (Nat × Int × Int)} :
    cellsOf r l = [] ↔ ∀ c ∈ l, roomNumberOf c.1 ≠ some r := by
  unfold cellsOf
  rw [List.filterMap_eq_nil]
  constructor
  · intro hall c hc hrn
    have := hall c hc
    rw [if_pos hrn] at this
    cases this
  · intro hall c hc
    rw [if_neg (hall c hc)]

theorem roomsSpec_nil : RoomsSpec [] [] := by
  intro r
  constructor
  · simp [dictGet, cellsOf]
  · intro box hbox
    cases hbox

theorem roomsSpec_step {d : List (Nat × RoomBox)} {seen : List (Nat × Int × Int)}
    (hs : RoomsSpec d seen) (v : Nat) (rx ry : Int) :
    RoomsSpec
      (match roomNumberOf v with
       | none => d
       | some rn => dictSet d rn (mergeBox (dictGet d rn) rx ry))
      (seen ++ [(v, rx, ry)]) := by
  intro r
  obtain ⟨hnone, hsome⟩ := hs r
  have hcells : cellsOf r (seen ++ [(v, rx, ry)]) =
      cellsOf r seen ++ (if roomNumberOf v = some r then [(rx, ry)] else []) := by
    rw [cellsOf_append, cellsOf_singleton]
  cases hrn : roomNumberOf v with
  | none =>
    have hif : (if roomNumberOf v = some r then [(rx, ry)] else []) =
        ([] : List (Int × Int)) := by
      rw [hrn]
      simp
    rw [hcells, hif, List.append_nil]
    exact ⟨hnone, hsome⟩
  | some rn =>
    by_cases hreq : r = rn
    · subst hreq
      have hif : (if roomNumberOf v = some r then [(rx, ry)] else []) = [(rx, ry)] := by
        rw [if_pos hrn]
      rw [hcells, hif]
      constructor
      · rw [dictGet_dictSet_self]
        constructor
        · intro hcontra
          cases hcontra
        · intro hcontra
          simp at hcontra
      · intro box hbox
        rw [dictGet_dictSet_self] at hbox
        simp only [Option.some.injEq] at hbox
        subst hbox
        cases hold : dictGet d r with
        | none =>
          have hempty : cellsOf r seen = [] := hnone.1 hold
          rw [hempty, List.nil_append]
          unfold mergeBox
          refine ⟨?_, ?_, ?_, ?_, ?_⟩
          · rintro p hp
            rw [List.mem_singleton] at hp
            subst hp
            exact ⟨le_refl _, le_refl _, le_refl _, le_refl _⟩
          all_goals exact ⟨(rx, ry), List.mem_singleton_self _, rfl⟩
        | some b =>
          obtain ⟨hb, ⟨p1, hp1, he1⟩, ⟨p2, hp2, he2⟩, ⟨p3, hp3, he3⟩, ⟨p4, hp4, he4⟩⟩ :=
            hsome b hold
          unfold mergeBox
          refine ⟨?_, ?_, ?_, ?_, ?_⟩
          · rintro p hp
            rcases List.mem_append.1 hp with hp | hp
            · obtain ⟨q1, q2, q3, q4⟩ := hb p hp
              exact ⟨le_trans (min_le_left _ _) q1, le_trans q2 (le_max_left _ _),
                le_trans (min_le_left _ _) q3, le_trans q4 (le_max_left _ _)⟩
            · rw [List.mem_singleton] at hp
              subst hp
              exact ⟨min_le_right _ _, le_max_right _ _, min_le_right _ _, le_max_right _ _⟩
          · rcases le_total b.x0 rx with hcmp | hcmp
            · exact ⟨p1, List.mem_append_left _ hp1, by rw [he1]; exact (min_eq_left hcmp).symm⟩
            · exact ⟨(rx, ry), List.mem_append_right _ (List.mem_singleton_self _),
                (min_eq_right hcmp).symm⟩
          · rcases le_total b.y0 ry with hcmp | hcmp
            · exact ⟨p2, List.mem_append_left _ hp2, by rw [he2]; exact (min_eq_left hcmp).symm⟩
            · exact ⟨(rx, ry), List.mem_append_right _ (List.mem_singleton_self _),
                (min_eq_right hcmp).symm⟩
          · rcases le_total b.x1 rx with hcmp | hcmp
            · exact ⟨(rx, ry), List.mem_append_right _ (List.mem_singleton_self _),
                (max_eq_right hcmp).symm⟩
            · exact ⟨p3, List.mem_append_left _ hp3, by rw [he3]; exact (max_eq_left hcmp).symm⟩
          · rcases le_total b.y1 ry with hcmp | hcmp
            · exact ⟨(rx, ry), List.mem_append_right _ (List.mem_singleton_self _),
                (max_eq_right hcmp).symm⟩
            · exact ⟨p4, List.mem_append_left _ hp4, by rw [he4]; exact (max_eq_left hcmp).symm⟩
    · have hneq : ¬rn = r := fun hcontra => hreq hcontra.symm
      have hif : (if roomNumberOf v = some r then [(rx, ry)] else []) =
          ([] : List (Int × Int)) := by
        rw [hrn]
        simp [hneq]
      rw [hcells, hif, List.append_nil,
        dictGet_dictSet_ne _ _ _ _ hreq]
      exact ⟨hnone, hsome⟩

theorem roomsSpec_fold :
    ∀ (l : List (Nat × Int × Int)) (a : List (Nat × RoomBox) × Finset Nat)
      (seen : List (Nat × Int × Int)), RoomsSpec a.1 seen →
      RoomsSpec (accFold a l).1 (seen ++ l) := by
  intro l
  induction l with
  | nil =>
    intro a seen hs
    simpa using hs
  | cons c rest IH =>
    obtain ⟨v, rx, ry⟩ := c
    intro a seen hs
    have hstep := roomsSpec_step hs v rx ry
    have happ : seen ++ (v, rx, ry) :: rest = (seen ++ [(v, rx, ry)]) ++ rest := by
      simp
    rw [happ]
    show RoomsSpec (accFold (accUpd a v rx ry) rest).1 _
    refine IH (accUpd a v rx ry) (seen ++ [(v, rx, ry)]) ?_
    have hupd := accUpd_fst a.1 a.2 v rx ry
    show RoomsSpec (accUpd (a.1, a.2) v rx ry).1 _
    rw [hupd]
    exact hstep

theorem mem_rowCells (data : List Nat) :
    ∀ (n o : Nat) (rx ry : Int) (c : Nat × Int × Int),
      c ∈ rowCells data o rx ry n ↔
        ∃ k : Nat, k < n ∧ c = (data.getD (o + k) 0, rx + (k : Int), ry) := by
  intro n
  induction n with
  | zero =>
    intro o rx ry c
    simp [rowCells]
  | succ n IH =>
    intro o rx ry c
    rw [rowCells, List.mem_cons]
    constructor
    · rintro (rfl | hmem)
      · exact ⟨0, by omega, by simp⟩
      · obtain ⟨k, hk, hc⟩ := (IH (o + 1) (rx + 1) ry c).1 hmem
        refine ⟨k + 1, by omega, ?_⟩
        rw [hc]
        have h1 : o + 1 + k = o + (k + 1) := by omega
        have h2 : rx + 1 + (k : Int) = rx + ((k + 1 : Nat) : Int) := by
          push_cast
          ring
        rw [h1, h2]
    · rintro ⟨k, hk, hc⟩
      cases k with
      | zero =>
        left
        rw [hc]
        simp
      | succ k =>
        right
        refine (IH (o + 1) (rx + 1) ry c).2 ⟨k, by omega, ?_⟩
        rw [hc]
        have h1 : o + (k + 1) = o + 1 + k := by omega
        have h2 : rx + ((k + 1 : Nat) : Int) = rx + 1 + (k : Int) := by
          push_cast
          ring
        rw [h1, h2]

theorem mem_gridCells (data : List Nat) (tlN trN tw : Nat) (tl tb : Int) :
    ∀ (m o iy : Nat) (c : Nat × Int × Int),
      c ∈ gridCells data tlN trN tw tl tb o iy m ↔
        ∃ j : Nat, j < m ∧ c ∈ rowCells data (o + j * (tlN + tw + trN) + tlN) tl
          (((iy + j : Nat) : Int) + tb) tw := by
  intro m
  induction m with
  | zero =>
    intro o iy c
    simp [gridCells]
  | succ m IH =>
    intro o iy c
    rw [gridCells, List.mem_append]
    constructor
    · rintro (hmem | hmem)
      · refine ⟨0, by omega, ?_⟩
        have h1 : o + 0 * (tlN + tw + trN) + tlN = o + tlN := by omega
        have h2 : ((iy + 0 : Nat) : Int) + tb = (iy : Int) + tb := by
          push_cast
          ring
        rw [h1, h2]
        exact hmem
      · obtain ⟨j, hj, hr⟩ := (IH (o + tlN + tw + trN) (iy + 1) c).1 hmem
        refine ⟨j + 1, by omega, ?_⟩
        have h1 : o + (j + 1) * (tlN + tw + trN) + tlN =
            o + tlN + tw + trN + j * (tlN + tw + trN) + tlN := by ring
        have h2 : ((iy + (j + 1) : Nat) : Int) + tb = ((iy + 1 + j : Nat) : Int) + tb := by
          push_cast
          ring
        rw [h1, h2]
        exact hr
    · rintro ⟨j, hj, hr⟩
      cases j with
      | zero =>
        left
        have h1 : o + 0 * (tlN + tw + trN) + tlN = o + tlN := by omega
        have h2 : ((iy + 0 : Nat) : Int) + tb = (iy : Int) + tb := by
          push_cast
          ring
        rw [h1, h2] at hr
        exact hr
      | succ j =>
        right
        refine (IH (o + tlN + tw + trN) (iy + 1) c).2 ⟨j, by omega, ?_⟩
        have h1 : o + (j + 1) * (tlN + tw + trN) + tlN =
            o + tlN + tw + trN + j * (tlN + tw + trN) + tlN := by ring
        have h2 : ((iy + (j + 1) : Nat) : Int) + tb = ((iy + 1 + j : Nat) : Int) + tb := by
          push_cast
          ring
        rw [h1, h2] at hr
        exact hr

/-- C7: on every successful decode (with the spec-mandated nonnegative
trim percentages), the returned bounding box of each room id is exactly
the componentwise min/max of the pre-flip raster-relative coordinates
`(img_x + trim_left, img_y + trim_bottom)` over all cells classified to
that room: the box bounds every such cell and each of its four sides is
attained by one; a room id has a box exactly when it has a cell. -/
theorem room_bounding_boxes
    {P : ParserCtx} {data : List Nat} {w h : Nat} {res : ParseResult}
    (hL : 0 ≤ P.trimLeft) (hR : 0 ≤ P.trimRight) (hT : 0 ≤ P.trimTop)
    (hB : 0 ≤ P.trimBottom)
    (hok : parse P data w h = .ok res) (r : Nat) :
    (dictGet res.rooms r = none →
      ∀ ix iy : Nat, ix < (trimmedW P w).toNat → iy < (trimmedH P h).toNat →
        roomNumberOf (cellByte data w (trimB P h).toNat (trimL P w).toNat ix iy) ≠
          some r) ∧
    (∀ box : RoomBox, dictGet res.rooms r = some box →
      (∀ ix iy : Nat, ix < (trimmedW P w).toNat → iy < (trimmedH P h).toNat →
        roomNumberOf (cellByte data w (trimB P h).toNat (trimL P w).toNat ix iy) =
          some r →
        box.x0 ≤ (ix : Int) + trimL P w ∧ (ix : Int) + trimL P w ≤ box.x1 ∧
        box.y0 ≤ (iy : Int) + trimB P h ∧ (iy : Int) + trimB P h ≤ box.y1) ∧
      (∃ ix iy : Nat, ix < (trimmedW P w).toNat ∧ iy < (trimmedH P h).toNat ∧
        roomNumberOf (cellByte data w (trimB P h).toNat (trimL P w).toNat ix iy) =
          some r ∧ box.x0 = (ix : Int) + trimL P w) ∧
      (∃ ix iy : Nat, ix < (trimmedW P w).toNat ∧ iy < (trimmedH P h).toNat ∧
        roomNumberOf (cellByte data w (trimB P h).toNat (trimL P w).toNat ix iy) =
          some r ∧ box.y0 = (iy : Int) + trimB P h) ∧
      (∃ ix iy : Nat, ix < (trimmedW P w).toNat ∧ iy < (trimmedH P h).toNat ∧
        roomNumberOf (cellByte data w (trimB P h).toNat (trimL P w).toNat ix iy) =
          some r ∧ box.x1 = (ix : Int) + trimL P w) ∧
      (∃ ix iy : Nat, ix < (trimmedW P w).toNat ∧ iy < (trimmedH P h).toNat ∧
        roomNumberOf (cellByte data w (trimB P h).toNat (trimL P w).toNat ix iy) =
          some r ∧ box.y1 = (iy : Int) + trimB P h)) := by
  have htl : 0 ≤ trimL P w :=
    pyInt_nonneg (div_nonneg (mul_nonneg hL (Nat.cast_nonneg w)) (by norm_num))
  have htr : 0 ≤ trimR P w :=
    pyInt_nonneg (div_nonneg (mul_nonneg hR (Nat.cast_nonneg w)) (by norm_num))
  have htb : 0 ≤ trimB P h :=
    pyInt_nonneg (div_nonneg (mul_nonneg hB (Nat.cast_nonneg h)) (by norm_num))
  rcases parse_ok_destruct hok with ⟨hcond, rfl⟩ | hmain
  · constructor
    · intro _ ix iy hx hy
      exfalso
      rcases hcond with h0 | h0
      · rw [h0] at hx
        simp at hx
      · rw [h0] at hy
        simp at hy
    · intro box hbox
      simp [dictGet] at hbox
  · obtain ⟨hw0, hh0, htw0, hth0, st₂, hrows, hr, -, -⟩ := hmain
    have htlc : ((trimL P w).toNat : Int) = trimL P w := Int.toNat_of_nonneg htl
    have htrc : ((trimR P w).toNat : Int) = trimR P w := Int.toNat_of_nonneg htr
    have htbc : ((trimB P h).toNat : Int) = trimB P h := Int.toNat_of_nonneg htb
    have htwc : ((trimmedW P w).toNat : Int) = (w : Int) - trimL P w - trimR P w := by
      rw [Int.toNat_of_nonneg htw0]
      rfl
    have hsum : (trimL P w).toNat + (trimmedW P w).toNat + (trimR P w).toNat = w := by
      omega
    have ho₀ : (⟨⟨"MapImage", data, 0 + trimB P h * w,
        (w : Int) * h - trimB P h * w, 0⟩, [], [], ∅, [], ∅⟩ : ParseSt).buf.offs =
        (((trimB P h).toNat * w : Nat) : Int) := by
      show 0 + trimB P h * w = _
      push_cast
      rw [htbc]
      ring
    obtain ⟨-, hacc⟩ := rowsLoop_ok_acc htl htr _ 0 _ st₂ _ ho₀ hrows
    have hrooms : res.rooms =
        (accFold ([], ∅) (gridCells data (trimL P w).toNat (trimR P w).toNat
          (trimmedW P w).toNat (trimL P w) (trimB P h)
          ((trimB P h).toNat * w) 0 (trimmedH P h).toNat)).1 := by
      rw [hr]
      exact congrArg Prod.fst hacc
    have hspec := roomsSpec_fold
      (gridCells data (trimL P w).toNat (trimR P w).toNat (trimmedW P w).toNat
        (trimL P w) (trimB P h) ((trimB P h).toNat * w) 0 (trimmedH P h).toNat)
      ([], ∅) [] roomsSpec_nil
    rw [List.nil_append] at hspec
    rw [hrooms]
    obtain ⟨hnone, hsome⟩ := hspec r
    have hmemL : ∀ c : Nat × Int × Int,
        c ∈ gridCells data (trimL P w).toNat (trimR P w).toNat (trimmedW P w).toNat
          (trimL P w) (trimB P h) ((trimB P h).toNat * w) 0 (trimmedH P h).toNat ↔
        ∃ ix iy : Nat, ix < (trimmedW P w).toNat ∧ iy < (trimmedH P h).toNat ∧
          c = (cellByte data w (trimB P h).toNat (trimL P w).toNat ix iy,
            (ix : Int) + trimL P w, (iy : Int) + trimB P h) := by
      intro c
      rw [mem_gridCells]
      constructor
      · rintro ⟨j, hj, hrow⟩
        rw [mem_rowCells] at hrow
        obtain ⟨k, hk, hc⟩ := hrow
        refine ⟨k, j, hk, hj, ?_⟩
        rw [hc]
        unfold cellByte
        rw [show (trimB P h).toNat * w + j * ((trimL P w).toNat + (trimmedW P w).toNat +
              (trimR P w).toNat) + (trimL P w).toNat + k =
            ((trimB P h).toNat + j) * w + (trimL P w).toNat + k from by rw [hsum]; ring,
          show trimL P w + (k : Int) = (k : Int) + trimL P w from by ring,
          show ((0 + j : Nat) : Int) + trimB P h = (j : Int) + trimB P h from by
            push_cast; ring]
      · rintro ⟨ix, iy, hx, hy, rfl⟩
        refine ⟨iy, hy, ?_⟩
        rw [mem_rowCells]
        refine ⟨ix, hx, ?_⟩
        unfold cellByte
        rw [show (trimB P h).toNat * w + iy * ((trimL P w).toNat + (trimmedW P w).toNat +
              (trimR P w).toNat) + (trimL P w).toNat + ix =
            ((trimB P h).toNat + iy) * w + (trimL P w).toNat + ix from by rw [hsum]; ring,
          show trimL P w + (ix : Int) = (ix : Int) + trimL P w from by ring,
          show ((0 + iy : Nat) : Int) + trimB P h = (iy : Int) + trimB P h from by
            push_cast; ring]
    constructor
    · intro hdnone ix iy hx hy hrn
      have hempty := hnone.1 hdnone
      rw [cellsOf_eq_nil] at hempty
      exact hempty _ ((hmemL _).2 ⟨ix, iy, hx, hy, rfl⟩) hrn
    · intro box hbox
      obtain ⟨hb, ⟨p1, hp1, he1⟩, ⟨p2, hp2, he2⟩, ⟨p3, hp3, he3⟩, ⟨p4, hp4, he4⟩⟩ :=
        hsome box hbox
      refine ⟨?_, ?_, ?_, ?_, ?_⟩
      · intro ix iy hx hy hrn
        have hp : ((ix : Int) + trimL P w, (iy : Int) + trimB P h) ∈ cellsOf r
            (gridCells data (trimL P w).toNat (trimR P w).toNat (trimmedW P w).toNat
              (trimL P w) (trimB P h) ((trimB P h).toNat * w) 0 (trimmedH P h).toNat) :=
          mem_cellsOf.2 ⟨_, (hmemL _).2 ⟨ix, iy, hx, hy, rfl⟩, hrn, rfl⟩
        exact hb _ hp
      · obtain ⟨c, hcL, hcrn, hpc⟩ := mem_cellsOf.1 hp1
        obtain ⟨ix, iy, hx, hy, rfl⟩ := (hmemL c).1 hcL
        refine ⟨ix, iy, hx, hy, hcrn, ?_⟩
        rw [← he1, hpc]
      · obtain ⟨c, hcL, hcrn, hpc⟩ := mem_cellsOf.1 hp2
        obtain ⟨ix, iy, hx, hy, rfl⟩ := (hmemL c).1 hcL
        refine ⟨ix, iy, hx, hy, hcrn, ?_⟩
        rw [← he2, hpc]
      · obtain ⟨c, hcL, hcrn, hpc⟩ := mem_cellsOf.1 hp3
        obtain ⟨ix, iy, hx, hy, rfl⟩ := (hmemL c).1 hcL
        refine ⟨ix, iy, hx, hy, hcrn, ?_⟩
        rw [← he3, hpc]
      · obtain ⟨c, hcL, hcrn, hpc⟩ := mem_cellsOf.1 hp4
        obtain ⟨ix, iy, hx, hy, rfl⟩ := (hmemL c).1 hcL
        refine ⟨ix, iy, hx, hy, hcrn, ?_⟩
        rw [← he4, hpc]

/-- C7 witness: the bounding-box theorem applied to a successful 1x1
decode of the single room byte 12: the box side `x0 = 0` of room 12 is
attained by a cell of room 12. -/
theorem room_bounding_boxes_witness :
    ∃ ix iy : Nat, ix < (trimmedW ctxPlain 1).toNat ∧
      iy < (trimmedH ctxPlain 1).toNat ∧
      roomNumberOf (cellByte [12] 1 (trimB ctxPlain 1).toNat
        (trimL ctxPlain 1).toNat ix iy) = some 12 ∧
      (⟨0, 0, 0, 0⟩ : RoomBox).x0 = (ix : Int) + trimL ctxPlain 1 :=
  ((room_bounding_boxes (by norm_num [ctxPlain]) (by norm_num [ctxPlain])
      (by norm_num [ctxPlain]) (by norm_num [ctxPlain])
      (show parse ctxPlain [12] 1 1 =
          .ok ⟨some ⟨1, 1, [((0, 0), 2012)]⟩, [(12, ⟨0, 0, 0, 0⟩)], ∅, none⟩ from by
        rw [parse, (trims_ctxPlain 1).1, (trims_ctxPlain 1).2.1,
          (trims_ctxPlain 1).2.2.1, (trims_ctxPlain 1).2.2.2]
        decide)
      12).2 ⟨0, 0, 0, 0⟩ (by decide)).2.1

end VacuumIjai
